import Mathlib

/-!
Verification of the yavdlt media-container pipeline against its specification.

The definitions below are shallow embeddings of the Python sources:
  * mcio_matroska.py - EBML variable-length integers (`_calc_vint_size`,
    `EBMLVInt.get_bindata`, `EBMLVInt.build_from_bindata`), Void-element sizing
    (`MatroskaElementVoid.new_by_size`), the frame queue and lacing machinery
    (`_FrameQueue`, `MatroskaFrame.build_blockthing`), the cluster builder
    (`MatroskaBuilder._build_clusters`) and the cue/offset resolution pass
    (`MatroskaBuilder.write_to_file`).
  * mcde_flv.py - the FLV audio-tag header parser (`FLVAudioData.build_from_file`).
  * yavdlt.py - the annotation-to-subtitle conversion (`YTAnnotation.get_sub`).

Machine integers are modelled as `Nat`/`Int` (Python integers are unbounded, so
no wrap-around modelling is needed); byte strings as `List Nat` with each entry
a byte value; fallible code (Python exceptions) as `Option`.  Loops whose
termination measure is not structural are given an explicit fuel argument that
provably dominates the number of iterations of the Python loop.
-/

/-! ### Python `int.bit_length`

`bitLenAux fuel n` computes the number of bits of `n` by repeated halving, as
Python's `int.bit_length()` does.  Fuel `n` suffices: the recursion depth is
`⌊log2 n⌋ + 1 ≤ n` for `n ≥ 1`. -/

def bitLenAux : Nat → Nat → Nat
  | 0, _ => 0
  | fuel+1, n => if n = 0 then 0 else bitLenAux fuel (n / 2) + 1

/-- Python `int.bit_length()` (of the absolute value, which is how Python
defines it for negative integers). -/
def pyBitLength (n : Nat) : Nat := bitLenAux n n

/-! ### `_calc_vint_size` (mcio_matroska.py)

```
def _calc_vint_size(i, signed):
   payload_len = (i+1-signed).bit_length() + signed
   rv = 1
   while ((rv*8 - rv) < payload_len):
      rv += 1
   return rv
```

The `while` loop is embedded with fuel `payload_len`, which dominates the
iteration count (the loop stops as soon as `7*rv ≥ payload_len`). -/

def sizeLoopF : Nat → Nat → Nat → Nat
  | 0, _, rv => rv
  | fuel+1, payload_len, rv =>
    if rv * 8 - rv < payload_len then sizeLoopF fuel payload_len (rv + 1) else rv

def calc_vint_size (i : Int) (signed : Bool) : Nat :=
  let payload_len :=
    pyBitLength (i + 1 - (if signed then 1 else 0)).natAbs + (if signed then 1 else 0)
  sizeLoopF payload_len payload_len 1

/-! ### Big-endian byte packing

`packBE n v` is the filling loop of `EBMLVInt.get_bindata`
(`rv[i] = val // mult; val %= mult; mult >>= 8`), producing `n` big-endian
bytes.  `beVal` is the accumulation loop of `build_from_bindata`
(`ival += bid[i][0]*mult; mult <<= 8` over the reversed byte list). -/

def packBE : Nat → Nat → List Nat
  | 0, _ => []
  | n+1, val => val / 2 ^ (8 * n) :: packBE n (val % 2 ^ (8 * n))

def beVal : List Nat → Nat
  | [] => 0
  | b :: t => b * 2 ^ (8 * t.length) + beVal t

/-! ### `EBMLVInt.get_bindata`

```
def get_bindata(self):
   rv = bytearray(self.size)
   (prefix_bytes, prefix_bits) = divmod(self.size-1, 8)
   databits = (8*len(rv) - 8*prefix_bytes - prefix_bits - 1)
   mult = 1 << (8*(len(rv)-prefix_bytes-1))
   val = int(self)
   if (self.SIGNED):
      val += 2**(databits-1)-1
   for i in range(prefix_bytes, len(rv)):
      rv[i] = val // mult
      val %= mult
      mult >>= 8
   rv[prefix_bytes] |= (1 << (7-prefix_bits))
   return rv
```

For every value in the domain of the round-trip theorems below the biased
value `val` is provably nonnegative; the `Int.toNat` coercion models the fact
that a negative `val` would make the Python bytearray assignment raise. -/

def get_bindata_core (signed : Bool) (v : Int) (size : Nat) : List Nat :=
  let pfxBytes := (size - 1) / 8
  let pfxBits := (size - 1) % 8
  let databits := 8 * size - 8 * pfxBytes - pfxBits - 1
  let val : Int := if signed then v + 2 ^ (databits - 1) - 1 else v
  let rv := List.replicate pfxBytes 0 ++ packBE (size - pfxBytes) val.toNat
  rv.set pfxBytes ((rv.getD pfxBytes 0) ||| (1 <<< (7 - pfxBits)))

def get_bindata (signed : Bool) (v : Int) : List Nat :=
  get_bindata_core signed v (calc_vint_size v signed)

/-! ### `EBMLVInt.build_from_bindata`

```
bd = memoryview(bd)
idx = 0
l = 0
while (bd[idx][0] == 0):
   l += 8
   idx += 1
sbits = cls.lt_sbit[bd[idx][0]]
prefix_val = bd[idx][0] & (2**sbits-1)
l += 7-sbits
bid = bd[idx+1:l+1]
bd[idx+l][0]
if ((cls.lt_prefix_reserved[bd[idx][0]]) and (bid == (b'\xFF'*l))):
   raise EBMLError(...)
mult = 1
ival = 0
for i in reversed(range(len(bid))):
   ival += bid[i][0]*mult
   mult <<= 8
ival += prefix_val*mult
if (cls.SIGNED):
   ival -= 2**(sbits+l*8-1)-1
return (cls(ival), l+1)
```

The lookup table `lt_sbit[b] = int(math.log(b, 2))` equals `bit_length(b) - 1`
and `lt_prefix_reserved[b]` tests whether `b+1` is a power of two; both float
computations were checked to agree with the exact integer semantics on the full
table index range 0..255.  Exceptions (exhausting the data in the leading-zero
loop, the explicit bounds probe `bd[idx+l][0]`, and the reserved-value check)
are modelled as `none`. -/

def pow2Check (n : Nat) : Bool := 2 ^ (pyBitLength n - 1) == n

def build_from_bindata (signed : Bool) (bd : List Nat) : Option (Int × Nat) :=
  let idx := (bd.takeWhile (· == 0)).length
  if idx < bd.length then
    let b := bd.getD idx 0
    let sbits := pyBitLength b - 1
    let pfx_val := b &&& (2 ^ sbits - 1)
    let l := 8 * idx + (7 - sbits)
    if idx + l < bd.length then
      let bid := (bd.drop (idx + 1)).take (l + 1 - (idx + 1))
      if pow2Check (b + 1) ∧ bid = List.replicate l 255 then
        none
      else
        let ival : Nat := beVal bid + pfx_val * 2 ^ (8 * bid.length)
        some ((ival : Int) - (if signed then 2 ^ (sbits + l * 8 - 1) - 1 else 0), l + 1)
    else none
  else none

/-! ### `MatroskaElementVoid.new_by_size` (claim C2)

```
@classmethod
def new_by_size(cls, full_size):
   vint_len_max = 8
   i = 1
   n = 0
   while (n < full_size):
      n = (1 << (7*i)) + i
      i += 1
   sz_len_pad = (full_size == n)
   bd_sz = full_size
   bd_sz_set = set()
   while (not (bd_sz in bd_sz_set)):
      bd_sz_set.add(bd_sz)
      void = cls(DataRefNull(bd_sz))
      sz_diff = full_size - void.get_size()
      if (0 <= sz_diff <= sz_len_pad):
         void._bd_size.size += sz_len_pad
         if (void._bd_size.size > vint_len_max):
            raise MatroskaError(...)
         return void
      bd_sz += sz_diff
      bd_sz = max(bd_sz, 0)
   raise MatroskaError(...)
```

`MatroskaElementVoid.__init__` builds `MatroskaVInt(bd_sz)`, which raises when
`bd_sz > 2^56 - 2`; `void.get_size()` is `type.size + bd_size.size + bd_size`
where the Void type id is the one-byte VInt 108.  A Void is modelled by its
body size and its (possibly padded) size-VInt length. -/

def uvintSize (n : Nat) : Nat := calc_vint_size (n : Int) false

structure MVoid where
  bd_size : Nat
  sz_len : Nat
deriving DecidableEq, Repr

def mvoid_get_size (v : MVoid) : Nat := uvintSize 108 + v.sz_len + v.bd_size

/-- The `while (n < full_size)` probe loop of `new_by_size`; state is `(i, n)`,
one fuel unit per iteration (the caller passes fuel `full_size`, far above the
at most `⌈bit_length(full_size)/7⌉ + 1` iterations the loop makes). -/
def padLoopF (full : Nat) : Nat → Nat → Nat → Nat
  | 0, _, n => n
  | fuel+1, i, n => if n < full then padLoopF full fuel (i + 1) ((1 <<< (7 * i)) + i) else n

def sz_len_pad_calc (full : Nat) : Bool := full == padLoopF full full 1 0

def nbsLoopF (full pad : Nat) : Nat → Nat → List Nat → Option MVoid
  | 0, _, _ => none
  | fuel+1, bd_sz, visited =>
    if bd_sz ∈ visited then none
    else if 2 ^ 56 - 2 < bd_sz then none
    else
      let vsz := uvintSize bd_sz
      let fsz := uvintSize 108 + vsz + bd_sz
      let sz_diff : Int := (full : Int) - fsz
      if 0 ≤ sz_diff ∧ sz_diff ≤ (pad : Int) then
        if 8 < vsz + pad then none
        else some ⟨bd_sz, vsz + pad⟩
      else
        nbsLoopF full pad fuel (((bd_sz : Int) + sz_diff).toNat) (bd_sz :: visited)

/-- `MatroskaElementVoid.new_by_size`.  The Python body-size loop terminates
through its visited set; fuel `full + 2` dominates the number of iterations
(for every input either the loop accepts or revisits a value within at most
`full + 2` steps, since each new body size is below `full`). -/
def void_new_by_size (full : Nat) : Option MVoid :=
  let pad : Nat := if sz_len_pad_calc full then 1 else 0
  nbsLoopF full pad (full + 2) full []

/-! ### Matroska builder: frames, lacing and blocks (mcio_matroska.py)

`MatroskaFrame(timecode, flags, tc_dependencies, data_r, dur)` is modelled with
the payload `data_r` replaced by its byte size (`data_r.get_size()` is all the
builder consults; the payload passes through opaquely).  `is_keyframe` is
`not self.tc_dependencies`. -/

structure MatroskaFrame where
  tc : Int
  flags : Nat
  tc_dependencies : List Int
  dataSize : Nat
  dur : Option Nat
deriving DecidableEq, Repr

def MatroskaFrame.is_keyframe (f : MatroskaFrame) : Bool := f.tc_dependencies.isEmpty

/-- The two lace-length-sequence classes the builder can emit
(`_LaceLengthSeqXiph`, `_LaceLengthSeqEBML`).  Fixed lacing never reaches the
output: see `make_blockthing`. -/
inductive LaceKind
  | xiph
  | ebml
deriving DecidableEq, Repr

/-- `MatroskaElementBlock_r`: `frames` is the `frame_data` list (as frames, so
that the consumed source frames stay visible), `lace` the `lace_data`. -/
structure Block_r where
  isSimple : Bool
  tracknum : Nat
  timecode : Int
  flags : Nat
  keyframe : Bool
  frames : List MatroskaFrame
  lace : Option LaceKind
deriving DecidableEq, Repr

/-- The output of `MatroskaFrame.build_blockthing`: either a bare SimpleBlock
(`MatroskaElementBlock_r.new_simple`) or a BlockGroup whose children are one
ReferenceBlock per entry of `tc_dependencies`, a BlockDuration, and the
Block. -/
inductive BlockThing
  | simple (b : Block_r)
  | group (refs : List Int) (dur : Nat) (b : Block_r)
deriving DecidableEq, Repr

def btBlock : BlockThing → Block_r
  | .simple b => b
  | .group _ _ b => b

def btIsSimple : BlockThing → Bool
  | .simple _ => true
  | .group _ _ _ => false

def btTrack (bt : BlockThing) : Nat := (btBlock bt).tracknum

/-- `is_keyframe` as the read-back path computes it: for a SimpleBlock the
keyframe flag bit, for a BlockGroup the absence of a ReferenceBlock child. -/
def btIsKeyframe : BlockThing → Bool
  | .simple b => b.keyframe
  | .group refs _ _ => refs.isEmpty

/--
```
def build_blockthing(self, tracknum, c_off):
   keyframe = self.is_keyframe()
   if (self.dur is None):
      return MatroskaElementBlock_r.new_simple(tracknum, self.tc-c_off, self.flags, keyframe, [self.data_r])
   se = [MatroskaElementReferenceBlock.new(tc) for tc in self.tc_dependencies]
   if not (self.dur is None):
      se.append(MatroskaElementBlockDuration.new(self.dur))
   se.append(MatroskaElementBlock_r.new(tracknum, self.tc-c_off, self.flags, keyframe, [self.data_r]))
   return MatroskaElementBlockGroup.new(se)
```
(`new_simple` ors `keyframe << 7` into the flags.) -/
def build_blockthing (f : MatroskaFrame) (tracknum : Nat) (c_off : Int) : BlockThing :=
  match f.dur with
  | none => .simple ⟨true, tracknum, f.tc - c_off,
      f.flags ||| ((if f.is_keyframe then 1 else 0) <<< 7), f.is_keyframe, [f], none⟩
  | some d => .group f.tc_dependencies d
      ⟨false, tracknum, f.tc - c_off, f.flags, f.is_keyframe, [f], none⟩

def LT_XIPH : Nat := 1

def LT_EBML : Nat := 2

def LT_FIXED : Nat := 4

def LT_ANY : Nat := LT_XIPH ||| LT_EBML ||| LT_FIXED

/-- `_FrameQueue`: the remaining frames (the source keeps the full list plus a
cursor) and the lace mask after the two consistency scans of `__init__`:

```
if (frames):
   if (self._lm):
      dur = frames[0].dur
      for frame in frames[1:]:
         if (frame.dur != dur):
            self._lm = False
            break
   if (self._lm & _MATROSKA_LT_FIXED):
      sz = frames[0].dur
      for frame in frames[1:]:
         if (frame.data_r.get_size() != sz):
            self._lm &= ~_MATROSKA_LT_FIXED
            break
```

Note that the second scan compares each frame size against `frames[0].dur`
(not against the first frame size). -/
structure FrameQueue where
  rem : List MatroskaFrame
  lm : Nat
deriving DecidableEq, Repr

def FrameQueue.init (frames : List MatroskaFrame) (lace_mask : Nat) : FrameQueue :=
  match frames with
  | [] => ⟨[], lace_mask⟩
  | f0 :: rest =>
    let lm1 := if lace_mask ≠ 0 ∧ rest.any (fun f => f.dur ≠ f0.dur) then 0 else lace_mask
    let lm2 := if lm1 &&& LT_FIXED ≠ 0 ∧ rest.any (fun f => some f.dataSize ≠ f0.dur) then
        lm1 &&& (LT_XIPH ||| LT_EBML) else lm1
    ⟨f0 :: rest, lm2⟩

/-- Header size of a Xiph lace-length sequence: each of `frames[:-1]`
contributes `size // 255` bytes of 0xFF plus one remainder byte. -/
def xiphSeqSize (fl : List MatroskaFrame) : Nat :=
  ((fl.dropLast).map (fun f => f.dataSize / 255 + 1)).sum

def svintSize (d : Int) : Nat := calc_vint_size d true

def ebmlSeqSizeAux : Nat → List MatroskaFrame → Nat
  | _, [] => 0
  | szPrev, f :: rest =>
    svintSize ((f.dataSize : Int) - szPrev) + ebmlSeqSizeAux f.dataSize rest

/-- Header size of an EBML lace-length sequence: an unsigned VInt for
`frames[0]`, then one signed VInt delta for each of `frames[1:-1]`. -/
def ebmlSeqSize (fl : List MatroskaFrame) : Nat :=
  match fl with
  | [] => 0
  | f0 :: rest => uvintSize f0.dataSize + ebmlSeqSizeAux f0.dataSize rest.dropLast

/-- The lace collection loop of `_FrameQueue.make_blockthing`
(`while (self and (len(fl) < ll)): ...`), returning the extra frames folded
into the block and the remaining queue.  `room` is `ll - 1` (the space left
after `frame0`). -/
def collectLace (kf : Bool) : Nat → List MatroskaFrame → List MatroskaFrame × List MatroskaFrame
  | 0, rem => ([], rem)
  | _+1, [] => ([], [])
  | room+1, f :: rest =>
    if f.is_keyframe ≠ kf then ([], f :: rest)
    else
      let p := collectLace kf room rest
      (f :: p.1, p.2)

/--
```
def make_blockthing(self, lace_limit, *args, **kwargs):
   ll = min(lace_limit, 256)
   frame0 = self._pop_frame()
   kf = frame0.is_keyframe()
   bt = frame0.build_blockthing(*args, **kwargs)
   fl = [frame0]
   if (self._lm):
      while (self and (len(fl) < ll)):
         frame = self._pop_frame()
         if (frame.is_keyframe() != kf):
            self._i -= 1
            break
         fl.append(frame)
   if ((not self._lm) or (len(fl) <= 1)):
      return bt
   if (self._lm & _MATROSKA_LT_FIXED):
      lt = _MATROSKA_LT_FIXED
   else:
      lls = None
      for lls_cls in (_LaceLengthSeqXiph, _LaceLengthSeqEBML):
         if not (lls_cls.LT & self._lm):
            continue
         lls_n = lls_cls.build_from_frames(fl)
         if ((lls is None) or (lls_n.get_size() < lls.get_size())):
            lls = lls_n
      if (lls is None):
         raise MatroskaError(...)
   bt.lace_data = lls
   bt.frame_data = [frame.data_r for frame in fl]
   return bt
```

One crash is modelled as `none`: when the fixed branch is taken, `lls` is
never assigned, so `bt.lace_data = lls` raises UnboundLocalError.  When `bt`
is a BlockGroup (frames with a duration), the two assignments succeed —
`EBMLElement` declares no `__slots__`, so every element instance carries a
`__dict__` (the builder itself relies on this for `c._tc` and
`c.__blockcount`) — but `MatroskaElementMaster.write_to_file` only walks
`self.sub` and never reads `lace_data`/`frame_data`: the BlockGroup is
returned holding only `frame0`'s Block, and the collected lace frames are
consumed from the queue yet dropped from the output.
An empty queue is also `none` (`_pop_frame` would raise IndexError; the
cluster builder never pops an empty queue). -/
def make_blockthing (q : FrameQueue) (lace_limit : Nat) (tracknum : Nat) (c_off : Int) :
    Option (BlockThing × FrameQueue) :=
  match q.rem with
  | [] => none
  | f0 :: rest =>
    let ll := min lace_limit 256
    let kf := f0.is_keyframe
    let bt := build_blockthing f0 tracknum c_off
    if q.lm = 0 then some (bt, ⟨rest, q.lm⟩)
    else
      let p := collectLace kf (ll - 1) rest
      let fl := f0 :: p.1
      if fl.length ≤ 1 then some (bt, ⟨p.2, q.lm⟩)
      else if q.lm &&& LT_FIXED ≠ 0 then none
      else
        let canX := q.lm &&& LT_XIPH ≠ 0
        let canE := q.lm &&& LT_EBML ≠ 0
        let lk : Option LaceKind :=
          if canX then
            if canE ∧ ebmlSeqSize fl < xiphSeqSize fl then some .ebml else some .xiph
          else if canE then some .ebml
          else none
        match lk with
        | none => none
        | some lace =>
          match bt with
          | .simple b => some (.simple { b with frames := fl, lace := some lace }, ⟨p.2, q.lm⟩)
          | .group refs dur b => some (.group refs dur b, ⟨p.2, q.lm⟩)

/-! ### Element sizes used by the cluster builder -/

/-- `MatroskaElementUInt._get_body_size`: `math.ceil(bit_length/8) or 1`. -/
def uintBodySize (v : Nat) : Nat := max ((pyBitLength v + 7) / 8) 1

/-- `MatroskaElementSInt._get_body_size`:
`math.ceil(((v + (v < 0)).bit_length() + 1)/8)`. -/
def sintBodySize (v : Int) : Nat :=
  (pyBitLength (v + (if v < 0 then 1 else 0)).natAbs + 1 + 7) / 8

/-- `get_size` of an integer element with type id `tid`:
`type.size + MatroskaVInt(bd_size).size + bd_size`. -/
def uintElemSize (tid v : Nat) : Nat :=
  uvintSize tid + uvintSize (uintBodySize v) + uintBodySize v

def sintElemSize (tid : Nat) (v : Int) : Nat :=
  uvintSize tid + uvintSize (sintBodySize v) + sintBodySize v

/-- `MatroskaElementBlock_r.get_size`: body is the 3-byte `>hB` sub-header,
the track number VInt, the lace header (lace length sequence plus its one
count byte), and the frame payloads. -/
def blockRSize (b : Block_r) : Nat :=
  let lh := match b.lace with
    | none => 0
    | some .xiph => xiphSeqSize b.frames + 1
    | some .ebml => ebmlSeqSize b.frames + 1
  let bd := 3 + uvintSize b.tracknum + lh + (b.frames.map (fun f => f.dataSize)).sum
  uvintSize (if b.isSimple then 35 else 33) + uvintSize bd + bd

/-- Serialised size of a blockthing: a bare Block_r, or a BlockGroup (type id
32) whose children are ReferenceBlocks (type id 123), a BlockDuration (type id
27) and the Block. -/
def btSize : BlockThing → Nat
  | .simple b => blockRSize b
  | .group refs dur b =>
    let body := (refs.map (fun d => sintElemSize 123 d)).sum + uintElemSize 27 dur +
      blockRSize b
    uvintSize 32 + uvintSize body + body

/-- A cluster: base timecode (`MatroskaElementTimecode`), optional
`MatroskaElementPrevSize` value, blockthings. -/
structure ClusterM where
  tc : Int
  prev_size : Option Nat
  blocks : List BlockThing
deriving DecidableEq, Repr

/-- `MatroskaElementCluster.get_size` (type id 256095861).  The base timecode
is a Matroska unsigned int element; `Int.toNat` models the fact that the
source would fail an assert on a negative base. -/
def cluster_get_size (c : ClusterM) : Nat :=
  let body := uintElemSize 103 c.tc.toNat +
    (match c.prev_size with
     | none => 0
     | some p => uintElemSize 43 p) +
    (c.blocks.map btSize).sum
  uvintSize 256095861 + uvintSize body + body

/-! ### `MatroskaBuilder._build_clusters` -/

/-- Per-track flags the cluster builder consults (`te._lacing`,
`te._make_cues`). -/
structure TrackInfo where
  lacing : Bool
  make_cues : Bool
deriving DecidableEq, Repr

/-- One `CueTrackPositions`: the track number, the referenced cluster (the
source keys the forward reference by `id(cluster)`; here the cluster's index
in the emitted sequence serves as that identity), and the 0-based block index
`c.__blockcount - 1`. -/
structure CueTP where
  track : Nat
  clust : Nat
  cbn : Nat
deriving DecidableEq, Repr

/-- The `cues` dict of `_build_clusters`: keyed by absolute timecode, kept in
insertion order (Python dict semantics); each value is the CuePoint's list of
CueTrackPositions. -/
def cueAdd (cues : List (Int × List CueTP)) (tc : Int) (ctp : CueTP) :
    List (Int × List CueTP) :=
  match cues with
  | [] => [(tc, [ctp])]
  | (t, l) :: rest => if t = tc then (t, l ++ [ctp]) :: rest else (t, l) :: cueAdd rest tc ctp

structure BCState where
  frames : List (Nat × FrameQueue)
  clusters : List ClusterM
  cues : List (Int × List CueTP)
  c_min : Int
  c_max : Int
deriving DecidableEq, Repr

/--
```
def add_cluster(tc):
   c2 = MatroskaElementCluster.new(tc+self.TOFF_CLUSTER)
   if not (c is None):
      c2.set_sub(MatroskaElementPrevSize.new(c.get_size()))
   c = c2
   clusters.append(c)
   c_min = c._tc - 2**15
   c_max = c_min + tlen_c - 1
   c.__blockcount = 0
```
with `TOFF_CLUSTER = 2**15`. -/
def bcAddCluster (tlen_c tc : Int) (st : BCState) : BCState :=
  let base := tc + 2 ^ 15
  let newc : ClusterM := ⟨base, st.clusters.getLast?.map cluster_get_size, []⟩
  { st with
    clusters := st.clusters ++ [newc]
    c_min := base - 2 ^ 15
    c_max := base - 2 ^ 15 + tlen_c - 1 }

/-- Index of the first minimal element of a list (`min` of Python keeps the
earliest of equal keys; dict iteration order is insertion order). -/
def argminFirstAux (i bi : Nat) (bv : Int) : List Int → Nat
  | [] => bi
  | x :: rest => if x < bv then argminFirstAux (i + 1) i x rest else argminFirstAux (i + 1) bi bv rest

def argminFirst : List Int → Nat
  | [] => 0
  | x :: rest => argminFirstAux 1 0 x rest

/-- `MatroskaElementTracks.get_track(idx)` is `self.sub[idx-1]`: Python list
indexing, so track number 0 yields `sub[-1]` — the last track entry — and an
out-of-range index (or any index into an empty list) raises IndexError,
modelled as `none`. -/
def trackAt (tracks : List TrackInfo) (tn : Nat) : Option TrackInfo :=
  if tn = 0 then tracks.getLast? else tracks.get? (tn - 1)

/-- The `while (frames)` loop of `_build_clusters`.  Fuel: every iteration
consumes at least one frame from some queue, so one unit per source frame
(plus one) suffices; `none` on exhausted fuel is unreachable from
`build_clusters` below.  The other `none` branches model crashes of the
source: selecting from an empty queue, a missing track entry, an empty
cluster list (`c is None`), and the `make_blockthing` exception. -/
def buildClustersStep (tracks : List TrackInfo) (tlen_c : Int) (lim : Nat)
    (st : BCState) : Option BCState :=
  match st.frames.mapM (fun e => e.2.rem.head?.map (fun f => f.tc)) with
  | none => none
  | some tcs0 =>
    let i := argminFirst tcs0
    match st.frames.get? i with
    | none => none
    | some (tn, q) =>
      match trackAt tracks tn with
      | none => none
      | some track =>
        match q.rem.head? with
        | none => none
        | some f0 =>
          let tc := f0.tc
          let st1 := if tc > st.c_max ∨ tc < st.c_min then bcAddCluster tlen_c tc st else st
          match st1.clusters.getLast? with
          | none => none
          | some c =>
            match make_blockthing q (if track.lacing then lim else 1) tn c.tc with
            | none => none
            | some (bt, q2) =>
              let clusters2 := st1.clusters.dropLast ++ [{ c with blocks := c.blocks ++ [bt] }]
              let frames2 := if q2.rem = [] then st.frames.eraseIdx i
                else st.frames.set i (tn, q2)
              let cues2 := if f0.is_keyframe ∧ track.make_cues then
                  cueAdd st.cues tc ⟨tn, st1.clusters.length - 1, c.blocks.length⟩
                else st.cues
              some ⟨frames2, clusters2, cues2, st1.c_min, st1.c_max⟩

def buildClustersLoop (tracks : List TrackInfo) (tlen_c : Int) (lim : Nat) :
    Nat → BCState → Option BCState
  | 0, _ => none
  | fuel+1, st =>
    match st.frames with
    | [] => some st
    | _ :: _ =>
      match buildClustersStep tracks tlen_c lim st with
      | none => none
      | some st1 => buildClustersLoop tracks tlen_c lim fuel st1

/--
`MatroskaBuilder._build_clusters`.  The bug-compatibility class constants
`bc_old_mplayer`, `bc_lavf_lacing` and `bc_vlc` are all `True` in the source,
so the cluster length is capped at `int(5*10**9/tcs)` ticks (the float
division agrees with floor division throughout the relevant range) and the
first cluster is aligned with the earliest frame timecode whenever every
track's frame list is nonempty (`min` over any empty list raises ValueError,
which the source catches by skipping the alignment).
`frames_per_block_limit = 32`. -/
def build_clusters (tcs : Nat) (tracks : List TrackInfo)
    (framesIn : List (Nat × List MatroskaFrame)) (lace_mask : Nat) :
    Option (List ClusterM × List (Int × List CueTP)) :=
  let frames := framesIn.map (fun e => (e.1, FrameQueue.init e.2 lace_mask))
  let tlen_c : Int := min (2 ^ 16) ((5 * 10 ^ 9) / tcs : Nat)
  let st0 : BCState := ⟨frames, [], [], 0, -1⟩
  let st1 :=
    match framesIn.flatMap (fun e => e.2.map (fun f => f.tc)) with
    | [] => st0
    | t :: ts =>
      if framesIn.all (fun e => e.2 ≠ []) then
        bcAddCluster tlen_c (-(2 ^ 15) + ts.foldl min t) st0
      else st0
  (buildClustersLoop tracks tlen_c 32
      ((framesIn.map (fun e => e.2.length)).sum + 1) st1).map
    (fun st => (st.clusters, st.cues))

/-! ### FLV audio tag header (mcde_flv.py, claim C8)

```
class FLVAudioData(FLVTag):
   SAMPLE_RATE_TABLE = (550, 11000, 22000, 44000)
   @classmethod
   def build_from_file(cls, f, data_size, ts):
      (flags,) = struct.unpack(...)
      codec_id = (flags & 240) >> 4
      sound_rate = (flags & 12) >> 2
      sound_size = (flags & 2) >> 1
      channel_count = (flags & 1) + 1
      if (codec_id == 10):
         (aacpt,) = struct.unpack(...)
      else:
         aacpt = None
      return cls(ts, data_r, codec_id, cls.SAMPLE_RATE_TABLE[sound_rate], sound_size,
         channel_count, aacpt)
```
-/

def SAMPLE_RATE_TABLE : List Nat := [550, 11000, 22000, 44000]

structure FLVAudioInfo where
  codec : Nat
  sample_freq : Nat
  sample_size : Nat
  channels : Nat
  aac_pt : Option Nat
deriving DecidableEq, Repr

def flv_audio_parse (flags : Nat) (nextByte : Option Nat) : FLVAudioInfo :=
  let codec_id := (flags &&& 240) >>> 4
  let sound_rate := (flags &&& 12) >>> 2
  let sound_size := (flags &&& 2) >>> 1
  let channel_count := (flags &&& 1) + 1
  let aacpt := if codec_id = 10 then nextByte else none
  ⟨codec_id, SAMPLE_RATE_TABLE.getD sound_rate 0, sound_size, channel_count, aacpt⟩

/-! ### Annotation to subtitle conversion (yavdlt.py, claim C10)

`YTAnnotationRR.build_from_xmlnode` turns the region time attribute into
`None` when the attribute is absent or equals the sentinel string `never`,
else parses the colon-delimited timestamp with at most three components
(seconds, minutes, hours; further components are discarded by the
`range(3)` loop).  Source floats are modelled as rationals.  The annotation
fields not consulted by `get_sub` (id, type, style, appearance, spam score,
urls) are omitted; `YTAnnotation` is shortened to `YTAnno` here. -/

inductive TAttr
  | absent
  | never
  | time (parts : List Rat)

def tstampLoopR : Nat → List Rat → Rat → Rat
  | 0, _, _ => 0
  | _+1, [], _ => 0
  | fuel+1, x :: rest, f => x * f + tstampLoopR fuel rest (f * 60)

def tstampVal (parts : List Rat) : Rat := tstampLoopR 3 parts.reverse 1

def parse_rr_t : TAttr → Option Rat
  | .absent => none
  | .never => none
  | .time parts => some (tstampVal parts)

structure YTAnnoRR where
  t : Option Rat
  x : Option Rat
  y : Option Rat
  w : Option Rat
  h : Option Rat
  d : Option Rat
deriving DecidableEq

structure YTAnno where
  content : Option String
  author : Option String
  r1 : Option YTAnnoRR
  r2 : Option YTAnnoRR
  yt_spam_flag : Bool
deriving DecidableEq

/-- The subtitle event `ASSSubtitle(start, dur, text, style)` with the `name`
attribute `get_sub` sets from the annotation author; the style is opaque
here. -/
structure ASSSub where
  start : Rat
  dur : Rat
  text : String
  name : Option String
deriving DecidableEq

/--
```
def get_sub(self, style_maker, filter_spam=False):
   if ((self.content is None) or
      (self.r1 is None) or
      (self.r2 is None) or
      (self.r1.t is None) or
      (self.r2.t is None)):
      return None
   if (filter_spam and self.is_spam()):
      return None
   style = style_maker(**self._get_style_kwargs())
   rv = ASSSubtitle(self.r1.t, self.r2.t-self.r1.t, self.content, style)
   if not (self.author is None):
      rv.name = self.author
   return rv
```
-/
def YTAnno.get_sub (a : YTAnno) (filter_spam : Bool) : Option ASSSub :=
  match a.content, a.r1, a.r2 with
  | some text, some r1, some r2 =>
    match r1.t, r2.t with
    | some t1, some t2 =>
      if filter_spam ∧ a.yt_spam_flag then none
      else some ⟨t1, t2 - t1, text, a.author⟩
    | _, _ => none
  | _, _, _ => none

/-! ### Concrete inputs used by the claims below -/

/-- The spec's lacing scenario: three consecutive audio frames of equal size
100 and equal duration 100. -/
def c1frames : List MatroskaFrame := List.replicate 3 ⟨0, 0, [], 100, some 100⟩

/-- Three equal-duration frames whose sizes 100, 42, 42 differ, with the
duration equal to the later sizes. -/
def c1frames2 : List MatroskaFrame :=
  [⟨0, 0, [], 100, some 42⟩, ⟨1, 0, [], 42, some 42⟩, ⟨2, 0, [], 42, some 42⟩]

/-- One keyframe at timecode 0 (claim C3's scenario: all frames at timecode 0,
timecode scale 1000000). -/
def c3frames : List MatroskaFrame := [⟨0, 0, [], 5, none⟩]

/-- Ten consecutive audio keyframes, one tick apart, no per-frame duration. -/
def c5frames : List MatroskaFrame := (List.range 10).map (fun i => ⟨(i : Int), 0, [], 2, none⟩)

def blocksInv (tlen : Int) (st : BCState) : Prop :=
  (∀ c ∈ st.clusters, ∀ bt ∈ c.blocks,
    -(2 ^ 15) ≤ (btBlock bt).timecode ∧
      (btBlock bt).timecode ≤ -(2 ^ 15) + max tlen 1 - 1) ∧
  (match st.clusters.getLast? with
   | some c => st.c_min = c.tc - 2 ^ 15 ∧ st.c_max = st.c_min + tlen - 1
   | none => st.c_max < st.c_min)

def cuesInv (st : BCState) : Prop :=
  ∀ p ∈ st.cues, ∀ ctp ∈ p.2,
    ∃ c, st.clusters[ctp.clust]? = some c ∧
      ∃ bt, c.blocks[ctp.cbn]? = some bt ∧
        btTrack bt = ctp.track ∧ btIsKeyframe bt = true

/-- Segment-body-relative offsets at which `MatroskaElementSegment.write_to_file`
writes the clusters: element `k` of the result is the offset passed to
`callback_cluster` for cluster `k` (`c.f.tell() - c.seg_off` just before the
cluster is written), `s0` being the total size of the elements preceding the
first cluster in `seg.sub`. -/
def clusterOffsets (s0 : Nat) : List ClusterM → List Nat
  | [] => []
  | c :: rest => s0 :: clusterOffsets (s0 + cluster_get_size c) rest

/-- The inner loop of `MatroskaElementCues.update_ccps`: each
CueTrackPositions' CueClusterPosition is set to `co_map[ccp._clust_id]`; a
missing key (KeyError) is `none`.  The result pairs each CueTrackPositions
with its assigned CueClusterPosition value. -/
def updCPs (offs : List Nat) : List CueTP → Option (List (CueTP × Nat))
  | [] => some []
  | ctp :: rest =>
    match offs[ctp.clust]? with
    | none => none
    | some o => (updCPs offs rest).map (fun t => (ctp, o) :: t)

/-- `MatroskaElementCues.update_ccps` over the CuePoints in order. -/
def update_ccps (offs : List Nat) :
    List (Int × List CueTP) → Option (List (Int × List (CueTP × Nat)))
  | [] => some []
  | (tv, l) :: rest =>
    match updCPs offs l with
    | none => none
    | some l2 => (update_ccps offs rest).map (fun t => (tv, l2) :: t)

/-! ## Theorems -/

theorem bitLenAux_le_iff : ∀ (fuel n k : Nat), n ≤ fuel →
    (bitLenAux fuel n ≤ k ↔ n < 2 ^ k) := by
  intro fuel
  induction fuel with
  | zero =>
    intro n k hn
    interval_cases n
    simp [bitLenAux, Nat.pos_pow_of_pos, Nat.two_pow_pos]
  | succ fuel ih =>
    intro n k hn
    by_cases h0 : n = 0
    · subst h0; simp [bitLenAux, Nat.two_pow_pos]
    · have hrec : n / 2 ≤ fuel := by omega
      cases k with
      | zero =>
        simp only [bitLenAux, if_neg h0, pow_zero]
        omega
      | succ k =>
        simp only [bitLenAux, if_neg h0, Nat.succ_le_succ_iff, ih (n / 2) k hrec,
          pow_succ]
        omega

theorem pyBitLength_le_iff (n k : Nat) : pyBitLength n ≤ k ↔ n < 2 ^ k :=
  bitLenAux_le_iff n n k le_rfl

theorem pyBitLength_eq_iff (n k : Nat) :
    pyBitLength n = k + 1 ↔ 2 ^ k ≤ n ∧ n < 2 ^ (k + 1) := by
  constructor
  · intro h
    have h1 : n < 2 ^ (k + 1) := (pyBitLength_le_iff n (k + 1)).1 (by omega)
    have h2 : ¬ n < 2 ^ k := fun hc => by
      have := (pyBitLength_le_iff n k).2 hc; omega
    exact ⟨by omega, h1⟩
  · rintro ⟨h1, h2⟩
    have ha : pyBitLength n ≤ k + 1 := (pyBitLength_le_iff n (k + 1)).2 h2
    have hb : ¬ pyBitLength n ≤ k := fun hc => by
      have := (pyBitLength_le_iff n k).1 hc; omega
    omega

theorem sizeLoopF_ge_start : ∀ (fuel p rv : Nat), rv ≤ sizeLoopF fuel p rv := by
  intro fuel
  induction fuel with
  | zero => intro p rv; simp [sizeLoopF]
  | succ fuel ih =>
    intro p rv
    simp only [sizeLoopF]
    split
    · exact le_trans (Nat.le_succ rv) (ih p (rv + 1))
    · exact le_rfl

theorem sizeLoopF_payload_le : ∀ (fuel p rv : Nat), p ≤ 7 * rv + 7 * fuel →
    p ≤ 7 * sizeLoopF fuel p rv := by
  intro fuel
  induction fuel with
  | zero => intro p rv h; simpa [sizeLoopF] using by omega
  | succ fuel ih =>
    intro p rv h
    simp only [sizeLoopF]
    split
    · exact ih p (rv + 1) (by omega)
    · omega

theorem sizeLoopF_le : ∀ (fuel p rv m : Nat), rv ≤ m → p ≤ 7 * m →
    sizeLoopF fuel p rv ≤ m := by
  intro fuel
  induction fuel with
  | zero => intro p rv m h _; simpa [sizeLoopF]
  | succ fuel ih =>
    intro p rv m h hm
    simp only [sizeLoopF]
    split
    · next hc => exact ih p (rv + 1) m (by omega) hm
    · exact h

theorem calc_vint_size_pos (i : Int) (signed : Bool) :
    1 ≤ calc_vint_size i signed :=
  sizeLoopF_ge_start _ _ 1

theorem packBE_length : ∀ (n v : Nat), (packBE n v).length = n := by
  intro n
  induction n with
  | zero => intro v; rfl
  | succ n ih => intro v; simp [packBE, ih]

theorem beVal_packBE : ∀ (n v : Nat), v < 2 ^ (8 * n) → beVal (packBE n v) = v := by
  intro n
  induction n with
  | zero =>
    intro v hv
    interval_cases v
    rfl
  | succ n ih =>
    intro v hv
    have hmod : v % 2 ^ (8 * n) < 2 ^ (8 * n) := Nat.mod_lt _ (Nat.two_pow_pos _)
    simp only [packBE, beVal, packBE_length, ih _ hmod]
    rw [Nat.mul_comm]
    exact Nat.div_add_mod v (2 ^ (8 * n))

/-! ### Round-trip correctness of the VInt codec (claim C4)

The encoding of a value whose biased payload is `S` and whose chosen length is
`s ≤ 8` bytes equals the `s`-byte big-endian representation of `S + 2^(7s)`
(the marker bit sits immediately above the `7s` payload bits), and decoding
such a byte string recovers `S` and consumes exactly `s` bytes. -/

theorem lor_two_pow_of_lt {a k : Nat} (h : a < 2 ^ k) : a ||| 2 ^ k = 2 ^ k + a := by
  apply Nat.eq_of_testBit_eq
  intro i
  rcases Nat.lt_trichotomy i k with hik | hik | hik
  · rw [Nat.testBit_lor, Nat.testBit_two_pow_add_gt hik, Nat.testBit_two_pow]
    simp [Nat.ne_of_gt hik]
  · subst hik
    rw [Nat.testBit_lor, Nat.testBit_two_pow_add_eq, Nat.testBit_lt_two_pow h,
      Nat.testBit_two_pow]
    simp
  · have h1 : a < 2 ^ i :=
      lt_of_lt_of_le h (Nat.pow_le_pow_right (by norm_num) (le_of_lt hik))
    have h2 : 2 ^ k + a < 2 ^ i := by
      calc 2 ^ k + a < 2 ^ k + 2 ^ k := by omega
        _ = 2 ^ (k + 1) := by ring
        _ ≤ 2 ^ i := Nat.pow_le_pow_right (by norm_num) hik
    rw [Nat.testBit_lor, Nat.testBit_lt_two_pow h1, Nat.testBit_lt_two_pow h2,
      Nat.testBit_two_pow]
    simp [Nat.ne_of_lt hik]

theorem pow_split_7s (t : Nat) (h7 : t ≤ 7) :
    (2 : Nat) ^ (7 * (t + 1)) = 2 ^ (7 - t) * 2 ^ (8 * t) := by
  rw [← pow_add]
  congr 1
  omega

theorem get_bindata_core_eq (signed : Bool) (v : Int) (t S : Nat) (h7 : t ≤ 7)
    (hS : (if signed then v + 2 ^ (7 * (t + 1) - 1) - 1 else v) = (S : Int))
    (hlt : S < 2 ^ (7 * (t + 1))) :
    get_bindata_core signed v (t + 1) = packBE (t + 1) (S + 2 ^ (7 * (t + 1))) := by
  have hpb : (t + 1 - 1) / 8 = 0 := by omega
  have hpm : (t + 1 - 1) % 8 = t := by omega
  have hSdiv : S / 2 ^ (8 * t) < 2 ^ (7 - t) := by
    rw [Nat.div_lt_iff_lt_mul (Nat.two_pow_pos _), ← pow_split_7s t h7]
    exact hlt
  simp only [get_bindata_core, hpb, hpm]
  have hdb : 8 * (t + 1) - 8 * 0 - t - 1 - 1 = 7 * (t + 1) - 1 := by omega
  rw [hdb, hS]
  simp only [Int.toNat_natCast, List.replicate_zero, List.nil_append, Nat.sub_zero]
  show (packBE (t + 1) S).set 0
      (((packBE (t + 1) S).getD 0 0) ||| (1 <<< (7 - t))) = _
  simp only [packBE, List.getD_cons_zero, List.set_cons_zero]
  rw [Nat.one_shiftLeft, lor_two_pow_of_lt hSdiv, pow_split_7s t h7,
    Nat.add_mul_div_right _ _ (Nat.two_pow_pos (8 * t)),
    Nat.add_mul_mod_self_right]
  congr 1
  omega

theorem beVal_replicate_255 : ∀ n : Nat, beVal (List.replicate n 255) = 2 ^ (8 * n) - 1 := by
  intro n
  induction n with
  | zero => rfl
  | succ n ih =>
    rw [List.replicate_succ]
    simp only [beVal, List.length_replicate, ih]
    have h : (2 : Nat) ^ (8 * (n + 1)) = 256 * 2 ^ (8 * n) := by
      rw [show 8 * (n + 1) = 8 + 8 * n by ring, pow_add]
      norm_num
    have hp : (1 : Nat) ≤ 2 ^ (8 * n) := Nat.one_le_two_pow
    omega

theorem build_from_bindata_packBE (signed : Bool) (t S : Nat) (h7 : t ≤ 7)
    (hlt : S < 2 ^ (7 * (t + 1)) - 1) :
    build_from_bindata signed (packBE (t + 1) (S + 2 ^ (7 * (t + 1)))) =
      some ((S : Int) - (if signed then 2 ^ (7 * (t + 1) - 1) - 1 else 0), t + 1) := by
  have hpos : (1 : Nat) ≤ 2 ^ (8 * t) := Nat.one_le_two_pow
  have hlt' : S < 2 ^ (7 * (t + 1)) := by omega
  have hSdiv : S / 2 ^ (8 * t) < 2 ^ (7 - t) := by
    rw [Nat.div_lt_iff_lt_mul (Nat.two_pow_pos _), ← pow_split_7s t h7]
    exact hlt'
  have hX : S + 2 ^ (7 * (t + 1)) = S + 2 ^ (7 - t) * 2 ^ (8 * t) := by
    rw [pow_split_7s t h7]
  have hb0 : (S + 2 ^ (7 * (t + 1))) / 2 ^ (8 * t) = S / 2 ^ (8 * t) + 2 ^ (7 - t) := by
    rw [hX, Nat.add_mul_div_right _ _ (Nat.two_pow_pos (8 * t))]
  have hrest : (S + 2 ^ (7 * (t + 1))) % 2 ^ (8 * t) = S % 2 ^ (8 * t) := by
    rw [hX, Nat.add_mul_mod_self_right]
  have h8t : (2 : Nat) ^ (8 - t) = 2 ^ (7 - t) + 2 ^ (7 - t) := by
    rw [show 8 - t = (7 - t) + 1 by omega, pow_succ]
    ring
  set b0 : Nat := S / 2 ^ (8 * t) + 2 ^ (7 - t) with hb0def
  have hb0low : 2 ^ (7 - t) ≤ b0 := Nat.le_add_left _ _
  have hb0high : b0 < 2 ^ (8 - t) := by
    rw [hb0def, h8t]
    exact Nat.add_lt_add_right hSdiv _
  have hb0ne : b0 ≠ 0 :=
    (Nat.lt_of_lt_of_le (Nat.two_pow_pos (7 - t)) hb0low).ne'
  have hbl : pyBitLength b0 = (7 - t) + 1 :=
    (pyBitLength_eq_iff b0 (7 - t)).2 ⟨hb0low, by
      rw [show 7 - t + 1 = 8 - t by omega]; exact hb0high⟩
  have hbd : packBE (t + 1) (S + 2 ^ (7 * (t + 1))) =
      b0 :: packBE t (S % 2 ^ (8 * t)) := by
    simp only [packBE, hb0, hrest]
  rw [hbd]
  simp only [build_from_bindata]
  have htw : (((b0 :: packBE t (S % 2 ^ (8 * t))) : List Nat).takeWhile (· == 0)).length = 0 := by
    rw [List.takeWhile_cons_of_neg]
    · rfl
    · simp [hb0ne]
  rw [htw]
  simp only [List.getD_cons_zero, List.length_cons, packBE_length, hbl]
  have hsb : (7 - t) + 1 - 1 = 7 - t := by omega
  have hl : 8 * 0 + (7 - (7 - t)) = t := by omega
  rw [hsb, hl]
  rw [if_pos (by omega : 0 < t + 1), if_pos (by omega : 0 + t < t + 1)]
  have hbid : ((b0 :: packBE t (S % 2 ^ (8 * t))).drop (0 + 1)).take (t + 1 - (0 + 1)) =
      packBE t (S % 2 ^ (8 * t)) := by
    simp only [List.drop_succ_cons, List.drop_zero, Nat.add_sub_cancel]
    exact List.take_of_length_le (by rw [packBE_length])
  rw [hbid]
  have hbeval : beVal (packBE t (S % 2 ^ (8 * t))) = S % 2 ^ (8 * t) :=
    beVal_packBE t _ (Nat.mod_lt _ (Nat.two_pow_pos _))
  rw [if_neg ?resv]
  case resv =>
    rintro ⟨hp2, hrep⟩
    have hq : S / 2 ^ (8 * t) = 2 ^ (7 - t) - 1 := by
      have heq : 2 ^ (pyBitLength (b0 + 1) - 1) = b0 + 1 := by
        simpa [pow2Check] using hp2
      set j := pyBitLength (b0 + 1) - 1 with hj
      have hj1 : 2 ^ (7 - t) < 2 ^ j := by
        rw [heq]
        exact Nat.lt_succ_of_le hb0low
      have hj2 : 2 ^ j ≤ 2 ^ (8 - t) := by
        rw [heq]
        exact hb0high
      have hj1' : 7 - t < j := by
        by_contra hc
        exact absurd (Nat.pow_le_pow_right (by norm_num) (Nat.le_of_not_lt hc))
          (Nat.not_le_of_lt hj1)
      have hj2' : j ≤ 8 - t := by
        by_contra hc
        have hlt8 : 2 ^ (8 - t) < 2 ^ j :=
          lt_of_lt_of_le (Nat.pow_lt_pow_succ (by norm_num))
            (Nat.pow_le_pow_right (by norm_num) (by omega))
        exact absurd hj2 (Nat.not_le_of_lt hlt8)
      have hjeq : j = 8 - t := by omega
      rw [hjeq] at heq
      have hq' : S / 2 ^ (8 * t) + 2 ^ (7 - t) + 1 = 2 ^ (7 - t) + 2 ^ (7 - t) := by
        rw [← h8t, heq, hb0def]
      omega
    have hm : S % 2 ^ (8 * t) = 2 ^ (8 * t) - 1 := by
      have := congrArg beVal hrep
      rw [hbeval, beVal_replicate_255] at this
      exact this
    have hdm := Nat.div_add_mod S (2 ^ (8 * t))
    set q := S / 2 ^ (8 * t) with hqdef
    have hP7 : (1 : Nat) ≤ 2 ^ (7 - t) := Nat.one_le_two_pow
    have hq1 : q + 1 = 2 ^ (7 - t) := by omega
    have hSfull : S + 1 = 2 ^ (8 * t) * (q + 1) := by
      have : 2 ^ (8 * t) * (q + 1) = 2 ^ (8 * t) * q + 2 ^ (8 * t) := by ring
      omega
    rw [hq1, ← Nat.mul_comm (2 ^ (7 - t)) (2 ^ (8 * t)), ← pow_split_7s t h7] at hSfull
    omega
  have hand : b0 &&& (2 ^ (7 - t) - 1) = S / 2 ^ (8 * t) := by
    rw [Nat.and_pow_two_sub_one_eq_mod, hb0def, Nat.add_mod_right,
      Nat.mod_eq_of_lt hSdiv]
  rw [hand, hbeval, packBE_length]
  have hival : S % 2 ^ (8 * t) + S / 2 ^ (8 * t) * 2 ^ (8 * t) = S :=
    Nat.mod_add_div' S (2 ^ (8 * t))
  have hbias : 7 - t + t * 8 - 1 = 7 * (t + 1) - 1 := by omega
  rw [hbias, hival]

theorem vint_encode_decode_unsigned (v : Nat) (hv : v ≤ 2 ^ 56 - 2) :
    build_from_bindata false (get_bindata false (v : Int)) =
      some ((v : Int), (get_bindata false (v : Int)).length) := by
  have habs : (((v : Int) + 1 - (if (false : Bool) = true then 1 else 0)).natAbs) = v + 1 := by
    rw [if_neg (by decide), sub_zero,
      show ((v : Int) + 1) = ((v + 1 : Nat) : Int) by push_cast; ring,
      Int.natAbs_ofNat]
  have hcs : calc_vint_size (v : Int) false =
      sizeLoopF (pyBitLength (v + 1)) (pyBitLength (v + 1)) 1 := by
    simp only [calc_vint_size, habs]
    simp
  have hp56 : pyBitLength (v + 1) ≤ 56 := (pyBitLength_le_iff _ 56).2 (by omega)
  have h1 : 1 ≤ calc_vint_size (v : Int) false := calc_vint_size_pos _ _
  have h8 : calc_vint_size (v : Int) false ≤ 8 := by
    rw [hcs]
    exact sizeLoopF_le _ _ 1 8 (by norm_num) (by omega)
  obtain ⟨t, ht, ht7⟩ : ∃ t, calc_vint_size (v : Int) false = t + 1 ∧ t ≤ 7 :=
    ⟨calc_vint_size (v : Int) false - 1, by omega, by omega⟩
  have hps : pyBitLength (v + 1) ≤ 7 * (t + 1) := by
    have := sizeLoopF_payload_le (pyBitLength (v + 1)) (pyBitLength (v + 1)) 1 (by omega)
    rw [← hcs] at this
    omega
  have hvlt : v + 1 < 2 ^ (7 * (t + 1)) := (pyBitLength_le_iff _ _).1 hps
  have hv2 : v < 2 ^ (7 * (t + 1)) - 1 := by omega
  have henc : get_bindata false (v : Int) = packBE (t + 1) (v + 2 ^ (7 * (t + 1))) := by
    unfold get_bindata
    rw [ht]
    exact get_bindata_core_eq false (v : Int) t v ht7 (by rw [if_neg (by decide)])
      (by omega)
  rw [henc, packBE_length]
  have := build_from_bindata_packBE false t v ht7 hv2
  rw [if_neg (by decide)] at this
  simpa using this

theorem vint_encode_decode_signed (v : Int) (hlo : -(2 ^ 48 - 1) ≤ v)
    (hhi : v ≤ 2 ^ 48 - 1) :
    build_from_bindata true (get_bindata true v) =
      some (v, (get_bindata true v).length) := by
  have habs : ((v + 1 - (if (true : Bool) = true then 1 else 0)).natAbs) = v.natAbs := by
    rw [if_pos rfl]
    congr 1
    ring
  have hcs : calc_vint_size v true =
      sizeLoopF (pyBitLength v.natAbs + 1) (pyBitLength v.natAbs + 1) 1 := by
    simp only [calc_vint_size, habs]
    simp
  have hna : v.natAbs < 2 ^ 48 := by omega
  have hp : pyBitLength v.natAbs ≤ 48 := (pyBitLength_le_iff _ 48).2 hna
  have h1 : 1 ≤ calc_vint_size v true := calc_vint_size_pos _ _
  have h8 : calc_vint_size v true ≤ 8 := by
    rw [hcs]
    exact sizeLoopF_le _ _ 1 8 (by norm_num) (by omega)
  obtain ⟨t, ht, ht7⟩ : ∃ t, calc_vint_size v true = t + 1 ∧ t ≤ 7 :=
    ⟨calc_vint_size v true - 1, by omega, by omega⟩
  have hps : pyBitLength v.natAbs + 1 ≤ 7 * (t + 1) := by
    have := sizeLoopF_payload_le (pyBitLength v.natAbs + 1) (pyBitLength v.natAbs + 1) 1
      (by omega)
    rw [← hcs] at this
    omega
  have hvlt : v.natAbs < 2 ^ (7 * (t + 1) - 1) := by
    have := (pyBitLength_le_iff v.natAbs (7 * (t + 1) - 1)).1 (by omega)
    exact this
  have hPP : (2 : Int) ^ (7 * (t + 1) - 1) + 2 ^ (7 * (t + 1) - 1) = 2 ^ (7 * (t + 1)) := by
    have h71 : 7 * (t + 1) - 1 + 1 = 7 * (t + 1) := by omega
    rw [← two_mul, ← pow_succ', h71]
  have hPnat : ((2 ^ (7 * (t + 1) - 1) : Nat) : Int) = (2 : Int) ^ (7 * (t + 1) - 1) := by
    push_cast
    ring
  have hnn : 0 ≤ v + 2 ^ (7 * (t + 1) - 1) - 1 := by omega
  have hS : v + 2 ^ (7 * (t + 1) - 1) - 1 = ((v + 2 ^ (7 * (t + 1) - 1) - 1).toNat : Int) :=
    (Int.toNat_of_nonneg hnn).symm
  have hlt : (v + 2 ^ (7 * (t + 1) - 1) - 1).toNat < 2 ^ (7 * (t + 1)) - 1 := by
    have hup : v + 2 ^ (7 * (t + 1) - 1) - 1 ≤ (2 : Int) ^ (7 * (t + 1)) - 2 := by omega
    have h2 : ((2 ^ (7 * (t + 1)) : Nat) : Int) = (2 : Int) ^ (7 * (t + 1)) := by
      push_cast
      ring
    omega
  have hltfull : (v + 2 ^ (7 * (t + 1) - 1) - 1).toNat < 2 ^ (7 * (t + 1)) := by omega
  have henc : get_bindata true v =
      packBE (t + 1) ((v + 2 ^ (7 * (t + 1) - 1) - 1).toNat + 2 ^ (7 * (t + 1))) := by
    unfold get_bindata
    rw [ht]
    refine get_bindata_core_eq true v t _ ht7 ?hS2 hltfull
    rw [if_pos rfl]
    exact hS
  rw [henc, packBE_length]
  have hdec := build_from_bindata_packBE true t _ ht7 hlt
  rw [if_pos rfl] at hdec
  rw [hdec]
  congr 2
  rw [← hS]
  ring

/-- Claim C4: for every VInt value in its legal domain (unsigned Matroska VInts
in [0, 2^56 - 2], signed in [-(2^48 - 1), 2^48 - 1]) and for both signednesses,
decoding the encoding round-trips:
decode(encode(v)) = (v, length(encode(v))), where encode picks the
minimum-length representation (`_calc_vint_size`). -/
theorem claim_C4_vint_roundtrip :
    (∀ v : Nat, v ≤ 2 ^ 56 - 2 →
      build_from_bindata false (get_bindata false (v : Int)) =
        some ((v : Int), (get_bindata false (v : Int)).length)) ∧
    (∀ v : Int, -(2 ^ 48 - 1) ≤ v → v ≤ 2 ^ 48 - 1 →
      build_from_bindata true (get_bindata true v) =
        some (v, (get_bindata true v).length)) :=
  ⟨fun v hv => vint_encode_decode_unsigned v hv,
   fun v h1 h2 => vint_encode_decode_signed v h1 h2⟩

/-- Witness for C4 at the concrete values 300 (unsigned) and -300 (signed). -/
theorem claim_C4_witness :
    build_from_bindata false (get_bindata false ((300 : Nat) : Int)) =
      some (((300 : Nat) : Int), (get_bindata false ((300 : Nat) : Int)).length) ∧
    build_from_bindata true (get_bindata true (-300)) =
      some (-300, (get_bindata true (-300)).length) :=
  ⟨claim_C4_vint_roundtrip.1 300 (by norm_num),
   claim_C4_vint_roundtrip.2 (-300) (by norm_num) (by norm_num)⟩

/-- Counterexample to claim C9: the code encodes the signed value -1 at length
1 as the byte 0xBE (not 0xBF), and decodes the byte 0xBF to (0, 1)
(not (-1, 1)): the signed bias at one byte is 2^6 - 1 = 63, so -1 maps to
payload 62 = 0x3E and the marker bit makes the byte 0xBE. -/
theorem claim_C9_counterexample :
    get_bindata true (-1) ≠ [0xBF] ∧ build_from_bindata true [0xBF] ≠ some (-1, 1) := by
  decide

/-- Claim C9 (amended): encoding the signed VInt value -1 at length 1 yields
the byte 0xBE and decoding 0xBE yields (-1, 1); the byte 0xBF decodes to
(0, 1). -/
theorem claim_C9_svint_encoding :
    get_bindata true (-1) = [0xBE] ∧ build_from_bindata true [0xBE] = some (-1, 1) ∧
      build_from_bindata true [0xBF] = some (0, 1) := by
  decide

theorem uvintSize_eq (n : Nat) :
    uvintSize n = sizeLoopF (pyBitLength (n + 1)) (pyBitLength (n + 1)) 1 := by
  have habs : (((n : Int) + 1 - (if (false : Bool) = true then 1 else 0)).natAbs) = n + 1 := by
    rw [if_neg (by decide), sub_zero,
      show ((n : Int) + 1) = ((n + 1 : Nat) : Int) by push_cast; ring,
      Int.natAbs_ofNat]
  simp only [uvintSize, calc_vint_size, habs]
  simp

theorem uvintSize_pos (n : Nat) : 1 ≤ uvintSize n := calc_vint_size_pos _ _

theorem uvintSize_le_iff (n m : Nat) (hm : 1 ≤ m) :
    uvintSize n ≤ m ↔ n + 1 < 2 ^ (7 * m) := by
  rw [uvintSize_eq]
  constructor
  · intro h
    have hp := sizeLoopF_payload_le (pyBitLength (n + 1)) (pyBitLength (n + 1)) 1 (by omega)
    exact (pyBitLength_le_iff _ _).1 (by omega)
  · intro h
    exact sizeLoopF_le _ _ 1 m hm ((pyBitLength_le_iff _ _).2 h)

theorem uvintSize_mono {a b : Nat} (hab : a ≤ b) : uvintSize a ≤ uvintSize b := by
  have h1 : 1 ≤ uvintSize b := uvintSize_pos b
  have h2 : b + 1 < 2 ^ (7 * uvintSize b) := (uvintSize_le_iff b _ h1).1 le_rfl
  exact (uvintSize_le_iff a _ h1).2 (by omega)

theorem padLoopF_form (full : Nat) : ∀ (fuel i n : Nat), 1 ≤ i →
    (n = 0 ∨ ∃ k, 1 ≤ k ∧ n = 2 ^ (7 * k) + k) →
    (padLoopF full fuel i n = 0 ∨
      ∃ k, 1 ≤ k ∧ padLoopF full fuel i n = 2 ^ (7 * k) + k) := by
  intro fuel
  induction fuel with
  | zero => intro i n _ hn; exact hn
  | succ fuel ih =>
    intro i n hi hn
    simp only [padLoopF]
    split
    · refine ih (i + 1) _ (by omega) (Or.inr ⟨i, hi, ?_⟩)
      rw [Nat.one_shiftLeft]
    · exact hn

theorem two_pow_seven_mul_strictMono {k l : Nat} (h : k < l) :
    2 ^ (7 * k) + k < 2 ^ (7 * l) + l := by
  have := Nat.pow_lt_pow_right (by norm_num : 1 < 2) (by omega : 7 * k < 7 * l)
  omega

theorem padLoopF_reach (K : Nat) (hK : 1 ≤ K) :
    ∀ (d i fuel : Nat), 1 ≤ i → i + d = K → d < fuel →
    padLoopF (2 ^ (7 * K) + K) fuel i (if i = 1 then 0 else 2 ^ (7 * (i - 1)) + (i - 1)) =
      2 ^ (7 * K) + K := by
  intro d
  induction d with
  | zero =>
    intro i fuel h1 hiK hf
    obtain ⟨f, rfl⟩ : ∃ f, fuel = f + 1 := ⟨fuel - 1, by omega⟩
    have hiKeq : i = K := by omega
    subst hiKeq
    have hcond : (if i = 1 then 0 else 2 ^ (7 * (i - 1)) + (i - 1)) < 2 ^ (7 * i) + i := by
      split
    
      · positivity
      · exact two_pow_seven_mul_strictMono (by omega)
    simp only [padLoopF, if_pos hcond, Nat.one_shiftLeft]
    cases f with
    | zero => rfl
    | succ f => simp [padLoopF]
  | succ d ih =>
    intro i fuel h1 hiK hf
    obtain ⟨f, rfl⟩ : ∃ f, fuel = f + 1 := ⟨fuel - 1, by omega⟩
    have hcond : (if i = 1 then 0 else 2 ^ (7 * (i - 1)) + (i - 1)) < 2 ^ (7 * K) + K := by
      split
      · positivity
      · exact two_pow_seven_mul_strictMono (by omega)
    simp only [padLoopF, if_pos hcond, Nat.one_shiftLeft]
    have := ih (i + 1) f (by omega) (by omega) (by omega)
    rw [if_neg (by omega : ¬ i + 1 = 1)] at this
    simpa using this

theorem sz_len_pad_true_of_form (K : Nat) (hK : 1 ≤ K)
    (hfuel : K ≤ 2 ^ (7 * K) + K) :
    sz_len_pad_calc (2 ^ (7 * K) + K) = true := by
  have hreach := padLoopF_reach K hK (K - 1) 1 (2 ^ (7 * K) + K) le_rfl (by omega)
    (by omega)
  rw [if_pos rfl] at hreach
  simp [sz_len_pad_calc, hreach]

theorem sz_len_pad_form_of_true (full : Nat) (h2 : 2 ≤ full)
    (h : sz_len_pad_calc full = true) :
    ∃ k, 1 ≤ k ∧ full = 2 ^ (7 * k) + k := by
  have heq : full = padLoopF full full 1 0 := by
    simpa [sz_len_pad_calc] using h
  rcases padLoopF_form full full 1 0 le_rfl (Or.inl rfl) with h0 | hform
  · omega
  · rw [← heq] at hform
    exact hform

theorem no_void_exact_at_form (K b : Nat) (hK : 1 ≤ K)
    (h : 1 + uvintSize b + b = 2 ^ (7 * K) + K) : False := by
  have h1 := uvintSize_pos b
  have hpow : 1 ≤ 2 ^ (7 * K) := Nat.one_le_two_pow
  by_cases hc : uvintSize b ≤ K
  · have := (uvintSize_le_iff b K hK).1 hc
    omega
  · have hb : b + 1 < 2 ^ (7 * K) := by omega
    have := (uvintSize_le_iff b K hK).2 hb
    omega

theorem uvintSize_drop_le (full v0 : Nat) (h2 : 2 ≤ full) (hv0 : uvintSize full = v0)
    (hvale : v0 ≤ full - 1) :
    v0 - 1 ≤ uvintSize (full - 1 - v0) := by
  by_cases hv2 : v0 ≤ 2
  · have := uvintSize_pos (full - 1 - v0)
    omega
  · by_contra hcon
    have hble : uvintSize (full - 1 - v0) ≤ v0 - 2 := by omega
    have hb1lt := (uvintSize_le_iff (full - 1 - v0) (v0 - 2) (by omega)).1 hble
    have hnot : ¬ (full + 1 < 2 ^ (7 * (v0 - 1))) := fun hcc => by
      have := (uvintSize_le_iff full (v0 - 1) (by omega)).2 hcc
      omega
    have hsplit : (2 : Nat) ^ (7 * (v0 - 1)) = 2 ^ (7 * (v0 - 2)) * 128 := by
      rw [show 7 * (v0 - 1) = 7 * (v0 - 2) + 7 by omega, pow_add]
      norm_num
    have hvx : v0 < 2 ^ (7 * (v0 - 2)) :=
      lt_of_lt_of_le (Nat.lt_two_pow v0) (Nat.pow_le_pow_right (by norm_num) (by omega))
    omega

theorem nbsLoopF_step_reject (full pad fuel bd : Nat) (visited : List Nat)
    (fuel2 bd2 : Nat) (hfuel : fuel = fuel2 + 1)
    (hbd2 : (bd2 : Int) = (bd : Int) + ((full : Int) - ((uvintSize 108 + uvintSize bd + bd : Nat) : Int)) ∨
      (bd2 = 0 ∧ (bd : Int) + ((full : Int) - ((uvintSize 108 + uvintSize bd + bd : Nat) : Int)) ≤ 0))
    (h1 : bd ∉ visited) (h2 : bd ≤ 2 ^ 56 - 2)
    (h3 : ¬ (0 ≤ (full : Int) - ((uvintSize 108 + uvintSize bd + bd : Nat) : Int) ∧
      (full : Int) - ((uvintSize 108 + uvintSize bd + bd : Nat) : Int) ≤ (pad : Int))) :
    nbsLoopF full pad fuel bd visited = nbsLoopF full pad fuel2 bd2 (bd :: visited) := by
  subst hfuel
  simp only [nbsLoopF]
  rw [if_neg h1, if_neg (by omega : ¬ 2 ^ 56 - 2 < bd), if_neg h3]
  congr 1
  omega

theorem nbsLoopF_step_accept (full pad fuel bd : Nat) (visited : List Nat)
    (hfuel : 1 ≤ fuel)
    (h1 : bd ∉ visited) (h2 : bd ≤ 2 ^ 56 - 2)
    (h3 : 0 ≤ (full : Int) - ((uvintSize 108 + uvintSize bd + bd : Nat) : Int) ∧
      (full : Int) - ((uvintSize 108 + uvintSize bd + bd : Nat) : Int) ≤ (pad : Int))
    (h4 : ¬ 8 < uvintSize bd + pad) :
    nbsLoopF full pad fuel bd visited = some ⟨bd, uvintSize bd + pad⟩ := by
  obtain ⟨f, rfl⟩ : ∃ f, fuel = f + 1 := ⟨fuel - 1, by omega⟩
  simp only [nbsLoopF]
  rw [if_neg h1, if_neg (by omega : ¬ 2 ^ 56 - 2 < bd), if_pos h3, if_neg h4]

/-- Claim C2 (amended): for every target length in [2, 2^56 - 2],
`MatroskaElementVoid.new_by_size(target)` returns a Void element whose
serialised size is exactly the target, with the size VInt padded by one extra
length byte exactly when the target has the form 2^(7k) + k (129, 16386, ...,
which includes the particular case 129). -/
theorem claim_C2_void_new_by_size (full : Nat) (h2 : 2 ≤ full)
    (hub : full ≤ 2 ^ 56 - 2) :
    (∃ v : MVoid, void_new_by_size full = some v ∧ mvoid_get_size v = full ∧
      v.sz_len = uvintSize v.bd_size + (if sz_len_pad_calc full then 1 else 0)) ∧
    (sz_len_pad_calc full = true ↔ ∃ k, 1 ≤ k ∧ full = 2 ^ (7 * k) + k) := by
  have hpad_iff : sz_len_pad_calc full = true ↔ ∃ k, 1 ≤ k ∧ full = 2 ^ (7 * k) + k := by
    refine ⟨sz_len_pad_form_of_true full h2, fun hk => ?_⟩
    obtain ⟨k, hk1, hfk⟩ := hk
    subst hfk
    exact sz_len_pad_true_of_form k hk1 (Nat.le_add_left _ _)
  refine ⟨?_, hpad_iff⟩
  have h108 : uvintSize 108 = 1 := by decide
  obtain ⟨v0, hv0⟩ : ∃ x, uvintSize full = x := ⟨_, rfl⟩
  have hv01 : 1 ≤ v0 := hv0 ▸ uvintSize_pos full
  have hv08 : v0 ≤ 8 := by
    rw [← hv0]
    refine (uvintSize_le_iff full 8 (by norm_num)).2 ?_
    norm_num
    omega
  have hvale : v0 ≤ full - 1 := by
    by_cases hsm : full ≤ 8
    · have : uvintSize full ≤ 1 := by
        refine (uvintSize_le_iff full 1 le_rfl).2 ?_
        norm_num
        omega
      omega
    · omega
  obtain ⟨b1, hb1⟩ : ∃ b, full - 1 - v0 = b := ⟨_, rfl⟩
  have hb1sum : b1 + 1 + v0 = full := by omega
  obtain ⟨w, hw⟩ : ∃ x, uvintSize b1 = x := ⟨_, rfl⟩
  have hw_le : w ≤ v0 := by
    rw [← hw, ← hv0]
    exact uvintSize_mono (by omega)
  have hw_ge : v0 - 1 ≤ w := by
    rw [← hw, ← hb1]
    exact uvintSize_drop_le full v0 h2 hv0 hvale
  have hw1 : 1 ≤ w := hw ▸ uvintSize_pos b1
  -- iteration 1: body size `full` is always rejected (the probe is 1 + v0 bytes
  -- larger than the target), moving to body size b1 = full - 1 - v0
  have hstep1 : void_new_by_size full =
      nbsLoopF full (if sz_len_pad_calc full then 1 else 0) (full + 1) b1 [full] := by
    show nbsLoopF full _ (full + 2) full [] = _
    refine nbsLoopF_step_reject full _ (full + 2) full [] (full + 1) b1 rfl ?_ (by simp)
      hub ?_
    · left
      rw [h108, hv0]
      push_cast
      omega
    · rintro ⟨hc, -⟩
      rw [h108, hv0] at hc
      push_cast at hc
      omega
  have hmem1 : b1 ∉ [full] := by
    simp only [List.mem_singleton]
    omega
  have hb1ub : b1 ≤ 2 ^ 56 - 2 := by omega
  rcases (by omega : w = v0 ∨ w + 1 = v0) with hcase | hcase
  · -- case A: the vint size at b1 equals v0, so 1 + w + b1 = full: exact fit.
    -- The pad is 0 here: a padded target is of the form 2^(7k)+k, which has no
    -- exact-fit body size at all.
    have hpad0 : (if sz_len_pad_calc full then 1 else 0) = 0 := by
      rcases hP : sz_len_pad_calc full with - | -
      · simp
      · exfalso
        obtain ⟨K, hK1, hKf⟩ := sz_len_pad_form_of_true full h2 hP
        exact no_void_exact_at_form K b1 hK1 (by rw [hw]; omega)
    have hacc : nbsLoopF full (if sz_len_pad_calc full then 1 else 0) (full + 1) b1 [full] =
        some ⟨b1, uvintSize b1 + (if sz_len_pad_calc full then 1 else 0)⟩ := by
      refine nbsLoopF_step_accept full _ (full + 1) b1 [full] (by omega) hmem1 hb1ub ?_ ?_
      · rw [h108, hw, hpad0]
        push_cast
        omega
      · rw [hw, hpad0]
        omega
    refine ⟨⟨b1, w⟩, ?_, ?_, ?_⟩
    · rw [hstep1, hacc, hw, hpad0]
      simp
    · simp only [mvoid_get_size, h108]
      omega
    · show w = uvintSize b1 + _
      rw [hw, hpad0]
      simp
  · -- case B: the vint size drops by one at b1.
    rcases hP : sz_len_pad_calc full with - | -
    · -- pad = 0: b1 is rejected (one byte short), the loop moves to b1 + 1,
      -- which fits exactly (otherwise full = 2^(7w) + w, contradicting pad = 0).
      have hpad0 : (if sz_len_pad_calc full then 1 else 0) = 0 := by simp [hP]
      rw [hpad0] at hstep1
      have hstep2 : nbsLoopF full 0 (full + 1) b1 [full] =
          nbsLoopF full 0 full (b1 + 1) [b1, full] := by
        refine nbsLoopF_step_reject full 0 (full + 1) b1 [full] full (b1 + 1) rfl ?_
          hmem1 hb1ub ?_
        · left
          rw [h108, hw]
          push_cast
          omega
        · rintro ⟨-, hc⟩
          rw [h108, hw] at hc
          push_cast at hc
          omega
      obtain ⟨w2, hw2⟩ : ∃ x, uvintSize (b1 + 1) = x := ⟨_, rfl⟩
      have hw2ge : w ≤ w2 := by
        rw [← hw, ← hw2]
        exact uvintSize_mono (by omega)
      have hw2eq : w2 = w := by
        by_contra hne
        -- a strict increase at b1 + 1 forces b1 = 2^(7w) - 2, hence
        -- full = 2^(7w) + w, a padded form: contradiction with pad = 0.
        have hjump : ¬ (uvintSize (b1 + 1) ≤ w) := by omega
        have hup : ¬ (b1 + 1 + 1 < 2 ^ (7 * w)) := fun hcc =>
          hjump ((uvintSize_le_iff (b1 + 1) w hw1).2 hcc)
        have hlo : b1 + 1 < 2 ^ (7 * w) := (uvintSize_le_iff b1 w hw1).1 (by omega)
        have hb1eq : b1 = 2 ^ (7 * w) - 2 := by omega
        have hfullform : full = 2 ^ (7 * w) + w := by
          have hpow : 1 ≤ 2 ^ (7 * w) := Nat.one_le_two_pow
          omega
        have hT := sz_len_pad_true_of_form w hw1 (by
          have hpow : 1 ≤ 2 ^ (7 * w) := Nat.one_le_two_pow
          omega)
        rw [← hfullform, hP] at hT
        exact Bool.false_ne_true hT
      have hmem2 : (b1 + 1) ∉ [b1, full] := by
        simp only [List.mem_cons, List.mem_singleton, List.not_mem_nil, or_false]
        rintro (hx | hx) <;> omega
      have hacc2 : nbsLoopF full 0 full (b1 + 1) [b1, full] =
          some ⟨b1 + 1, uvintSize (b1 + 1) + 0⟩ := by
        refine nbsLoopF_step_accept full 0 full (b1 + 1) [b1, full] (by omega) hmem2
          (by omega) ?_ ?_
        · rw [h108, hw2, hw2eq]
          push_cast
          omega
        · rw [hw2, hw2eq]
          omega
      refine ⟨⟨b1 + 1, w⟩, ?_, ?_, ?_⟩
      · rw [hstep1, hstep2, hacc2, hw2, hw2eq]
        simp
      · simp only [mvoid_get_size, h108]
        omega
      · show w = uvintSize (b1 + 1) + _
        rw [hw2, hw2eq]
        simp
    · -- pad = 1: b1 is one byte short of the target, which the padded size
      -- vint absorbs.
      have hpad1 : (if sz_len_pad_calc full then 1 else 0) = 1 := by simp [hP]
      rw [hpad1] at hstep1
      have hacc : nbsLoopF full 1 (full + 1) b1 [full] = some ⟨b1, uvintSize b1 + 1⟩ := by
        refine nbsLoopF_step_accept full 1 (full + 1) b1 [full] (by omega) hmem1 hb1ub ?_ ?_
        · rw [h108, hw]
          push_cast
          omega
        · rw [hw]
          omega
      refine ⟨⟨b1, w + 1⟩, ?_, ?_, ?_⟩
      · rw [hstep1, hacc, hw]
      · simp only [mvoid_get_size, h108]
        omega
      · show w + 1 = uvintSize b1 + _
        rw [hw]
        simp

/-- Counterexample to claim C2 as stated for all targets of at least 2 bytes:
at target 2^56 - 1 the first probe constructs a Void whose body size equals the
full target, which exceeds the Matroska VInt value ceiling 2^56 - 2, so
`new_by_size` raises a MatroskaError instead of returning a Void. -/

theorem claim_C2_counterexample : void_new_by_size (2 ^ 56 - 1) = none := by decide

/-- Witness for C2 at the particular target 129 named by the claim. -/
theorem claim_C2_witness :
    (∃ v : MVoid, void_new_by_size 129 = some v ∧ mvoid_get_size v = 129 ∧
      v.sz_len = uvintSize v.bd_size + (if sz_len_pad_calc 129 then 1 else 0)) ∧
    (sz_len_pad_calc 129 = true ↔ ∃ k, 1 ≤ k ∧ 129 = 2 ^ (7 * k) + k) :=
  claim_C2_void_new_by_size 129 (by norm_num) (by norm_num)

/-- Claim C1: the code contradicts the claimed lacing invariant.  On the
spec's own scenario (three audio frames of one common size and one common
duration) the `_FrameQueue` retains the fixed-lacing bit, but
`make_blockthing` then crashes (UnboundLocalError: the fixed branch never
assigns `lls`) instead of emitting a fixed-laced block; moreover the
fixed-lacing precondition compares the frame sizes against the first frame's
duration rather than its size, so it also holds for frames of sizes
100, 42, 42 with duration 42. -/
theorem claim_C1_fixed_lacing_crash :
    (FrameQueue.init c1frames LT_ANY).lm &&& LT_FIXED ≠ 0 ∧
    make_blockthing (FrameQueue.init c1frames LT_ANY) 32 1 0 = none ∧
    (FrameQueue.init c1frames2 LT_ANY).lm &&& LT_FIXED ≠ 0 ∧
    make_blockthing (FrameQueue.init c1frames2 LT_ANY) 32 1 0 = none := by decide

/-- Claim C3: with the default compatibility flags the builder does not put
the earliest frame into the aligned first cluster.  For one keyframe at
timecode 0 and timecode scale 1000000 it emits two clusters: the first with
base 0 and no blocks, the second with base 32768 holding the frame as a
SimpleBlock at stored offset -32768 (the claim expects a single cluster with
base 0 holding the frame).  The cluster length is capped at 5000 ticks, so
the aligned first cluster's accept window [base - 2^15, base - 2^15 + 4999]
cannot contain its own base timecode. -/
theorem claim_C3_first_cluster_misaligned :
    (build_clusters 1000000 [⟨false, true⟩] [(1, c3frames)] LT_ANY).map
      (fun r => (r.1.map ClusterM.tc, r.1.map (fun c => c.blocks.length),
        r.1.flatMap (fun c => c.blocks.map (fun b => (btBlock b).timecode)))) =
    some ([0, 32768], [0, 1], [-32768]) := by decide

/-- Counterexample to claim C5 as stated: lacing folds follow-up frames into a
block with no window check.  With timecode scale 10^9 the cluster length L is
5 ticks; the ten audio frames at timecodes 0..9 are laced into one block of
the cluster with base 32768, so the frames at timecodes 5..9 are placed into
that cluster even though their timecodes exceed TB - 2^15 + L - 1 = 4. -/
theorem claim_C5_counterexample :
    (build_clusters (10 ^ 9) [⟨true, false⟩] [(1, c5frames)] LT_ANY).isSome = true ∧
    ∃ c ∈ ((build_clusters (10 ^ 9) [⟨true, false⟩] [(1, c5frames)] LT_ANY).getD ([], [])).1,
      ∃ b ∈ c.blocks, ∃ f ∈ (btBlock b).frames,
        ¬ (c.tc - 2 ^ 15 ≤ f.tc ∧
          f.tc ≤ c.tc - 2 ^ 15 + (min (2 ^ 16) ((5 * 10 ^ 9) / 10 ^ 9 : Nat) : Int) - 1) := by
  decide

/-- Counterexample to claim C6 as stated: a frame with a back-reference (hence
not a keyframe) but no per-block duration is emitted as a SimpleBlock, not as
a BlockGroup with a ReferenceBlock.  `build_blockthing` chooses the block kind
solely on whether a duration is present. -/
theorem claim_C6_counterexample :
    (⟨0, 0, [-1], 7, none⟩ : MatroskaFrame).is_keyframe = false ∧
    (⟨0, 0, [-1], 7, none⟩ : MatroskaFrame).tc_dependencies ≠ [] ∧
    btIsSimple (build_blockthing ⟨0, 0, [-1], 7, none⟩ 1 0) = true := by decide

/-- Claim C6 (amended): a frame is emitted as a SimpleBlock exactly when it
has no per-block duration (the keyframe status is recorded in the SimpleBlock
flag bit); otherwise it is emitted as a BlockGroup carrying one signed
ReferenceBlock delta per back-reference, the BlockDuration, and the Block. -/
theorem claim_C6_blockthing (f : MatroskaFrame) (tn : Nat) (c_off : Int) :
    (btIsSimple (build_blockthing f tn c_off) = true ↔ f.dur = none) ∧
    (f.dur = none →
      build_blockthing f tn c_off = .simple ⟨true, tn, f.tc - c_off,
        f.flags ||| ((if f.is_keyframe then 1 else 0) <<< 7), f.is_keyframe, [f], none⟩) ∧
    (∀ d, f.dur = some d →
      build_blockthing f tn c_off = .group f.tc_dependencies d
        ⟨false, tn, f.tc - c_off, f.flags, f.is_keyframe, [f], none⟩) := by
  rcases hd : f.dur with - | d <;>
    simp [build_blockthing, btIsSimple, hd]

/-- Witness for C6 at two concrete frames: a keyframe without duration and a
non-keyframe with duration 4. -/
theorem claim_C6_witness :
    ((btIsSimple (build_blockthing ⟨3, 0, [], 9, none⟩ 1 10) = true ↔
        (⟨3, 0, [], 9, none⟩ : MatroskaFrame).dur = none) ∧
      ((⟨3, 0, [], 9, none⟩ : MatroskaFrame).dur = none →
        build_blockthing ⟨3, 0, [], 9, none⟩ 1 10 = .simple ⟨true, 1, 3 - 10,
          0 ||| ((if (⟨3, 0, [], 9, none⟩ : MatroskaFrame).is_keyframe then 1 else 0) <<< 7),
          (⟨3, 0, [], 9, none⟩ : MatroskaFrame).is_keyframe, [⟨3, 0, [], 9, none⟩], none⟩) ∧
      (∀ d, (⟨3, 0, [], 9, none⟩ : MatroskaFrame).dur = some d →
        build_blockthing ⟨3, 0, [], 9, none⟩ 1 10 = .group [] d
          ⟨false, 1, 3 - 10, 0, (⟨3, 0, [], 9, none⟩ : MatroskaFrame).is_keyframe,
            [⟨3, 0, [], 9, none⟩], none⟩)) ∧
    (∀ d, (⟨5, 0, [-2], 9, some 4⟩ : MatroskaFrame).dur = some d →
      build_blockthing ⟨5, 0, [-2], 9, some 4⟩ 2 0 = .group [-2] d
        ⟨false, 2, 5 - 0, 0, (⟨5, 0, [-2], 9, some 4⟩ : MatroskaFrame).is_keyframe,
          [⟨5, 0, [-2], 9, some 4⟩], none⟩) :=
  ⟨claim_C6_blockthing ⟨3, 0, [], 9, none⟩ 1 10,
   (claim_C6_blockthing ⟨5, 0, [-2], 9, some 4⟩ 2 0).2.2⟩

/-- Claim C8: the code maps sample-rate index 0 to 550 Hz, not the 5500 Hz
(5.5 kHz) the claim states: `SAMPLE_RATE_TABLE = (550, 11000, 22000, 44000)`
drops a zero from the first entry.  The low flag bit does select mono versus
stereo (channel counts 1 and 2). -/
theorem claim_C8_sample_rate_table :
    (flv_audio_parse 0 none).sample_freq = 550 ∧
    (flv_audio_parse 0 none).sample_freq ≠ 5500 ∧
    (flv_audio_parse 0 none).channels = 1 ∧
    (flv_audio_parse 1 none).channels = 2 ∧
    (flv_audio_parse 4 none).sample_freq = 11000 ∧
    (flv_audio_parse 8 none).sample_freq = 22000 ∧
    (flv_audio_parse 12 none).sample_freq = 44000 := by decide

/-! ### Invariants of the cluster builder (claims C5 and C7) -/

theorem build_blockthing_spec (f : MatroskaFrame) (tn : Nat) (coff : Int) :
    (btBlock (build_blockthing f tn coff)).timecode = f.tc - coff ∧
    btTrack (build_blockthing f tn coff) = tn ∧
    (f.is_keyframe = true → btIsKeyframe (build_blockthing f tn coff) = true) := by
  rcases hd : f.dur with - | d <;>
    simp [build_blockthing, btBlock, btTrack, btIsKeyframe, hd, MatroskaFrame.is_keyframe]

theorem make_blockthing_spec (q : FrameQueue) (ll tn : Nat) (coff : Int)
    (bt : BlockThing) (q2 : FrameQueue)
    (h : make_blockthing q ll tn coff = some (bt, q2)) :
    ∃ f0 rest, q.rem = f0 :: rest ∧
      (btBlock bt).timecode = f0.tc - coff ∧ btTrack bt = tn ∧
      (f0.is_keyframe = true → btIsKeyframe bt = true) := by
  rcases hrem : q.rem with - | ⟨f0, rest⟩
  · rw [make_blockthing, hrem] at h
    simp at h
  · refine ⟨f0, rest, rfl, ?_⟩
    have hspec := build_blockthing_spec f0 tn coff
    simp only [make_blockthing, hrem] at h
    rcases hbb : build_blockthing f0 tn coff with b | ⟨refs, dur, b⟩ <;>
      rw [hbb] at h hspec <;>
      repeat' split at h
    all_goals
      try (rcases h with ⟨rfl, rfl⟩)
    all_goals
      simp_all [btBlock, btTrack, btIsKeyframe]

theorem cueAdd_mem (tc : Int) (ctp : CueTP) :
    ∀ (cues : List (Int × List CueTP)), ∀ p ∈ cueAdd cues tc ctp, ∀ x ∈ p.2,
      (∃ p0 ∈ cues, x ∈ p0.2) ∨ x = ctp := by
  intro cues
  induction cues with
  | nil =>
    intro p hp x hx
    simp only [cueAdd, List.mem_singleton] at hp
    subst hp
    simp only [List.mem_singleton] at hx
    exact Or.inr hx
  | cons hd tl ih =>
    obtain ⟨t, l⟩ := hd
    intro p hp x hx
    simp only [cueAdd] at hp
    split_ifs at hp with he
    · rcases List.mem_cons.1 hp with hp1 | hp1
      · subst hp1
        rcases List.mem_append.1 hx with hx1 | hx1
        · exact Or.inl ⟨(t, l), List.mem_cons_self _ _, hx1⟩
        · exact Or.inr (List.mem_singleton.1 hx1)
      · exact Or.inl ⟨p, List.mem_cons_of_mem _ hp1, hx⟩
    · rcases List.mem_cons.1 hp with hp1 | hp1
      · subst hp1
        exact Or.inl ⟨(t, l), List.mem_cons_self _ _, hx⟩
      · rcases ih p hp1 x hx with ⟨p0, hp0, hx0⟩ | hx0
        · exact Or.inl ⟨p0, List.mem_cons_of_mem _ hp0, hx0⟩
        · exact Or.inr hx0

theorem getElem?_lt_length {α : Type} {l : List α} {n : Nat} {a : α}
    (h : l[n]? = some a) : n < l.length := by
  by_contra hge
  rw [List.getElem?_eq_none (by omega)] at h
  exact Option.noConfusion h

theorem buildClustersStep_spec (tracks : List TrackInfo) (tlen_c : Int) (lim : Nat)
    (st st2 : BCState)
    (hinv : blocksInv tlen_c st) (hcue : cuesInv st)
    (h : buildClustersStep tracks tlen_c lim st = some st2) :
    blocksInv tlen_c st2 ∧ cuesInv st2 := by
  rw [buildClustersStep] at h
  simp only [] at h
  split at h
  · exact Option.noConfusion h
  next tcs0 hm =>
  split at h
  · exact Option.noConfusion h
  next tn q hg =>
  split at h
  · exact Option.noConfusion h
  next track ht =>
  split at h
  · exact Option.noConfusion h
  next f0 hh =>
  split at h
  · exact Option.noConfusion h
  next c hl =>
  split at h
  · exact Option.noConfusion h
  next bt q2 hmb =>
  injection h with h2
  subst h2
  obtain ⟨f0', rest', hrem, hbt1, hbt2, hbt3⟩ := make_blockthing_spec q _ tn _ bt q2 hmb
  have hf0 : f0 = f0' := by
    have hh2 := hh
    rw [hrem] at hh2
    simpa using hh2.symm
  subst hf0
  by_cases hw : f0.tc > st.c_max ∨ f0.tc < st.c_min
  · rw [if_pos hw] at hl ⊢
    simp only [bcAddCluster, List.getLast?_concat, List.dropLast_concat] at hl ⊢
    have hl2 := Option.some.inj hl
    have hctc : c.tc = f0.tc + 2 ^ 15 := by rw [← hl2]
    have hcbl : c.blocks = [] := by rw [← hl2]
    refine ⟨⟨?_, ?_⟩, ?_⟩
    · intro c0 hc0 b hb
      rcases List.mem_append.1 hc0 with hmem | hmem
      · exact hinv.1 c0 hmem b hb
      · rw [List.mem_singleton] at hmem
        subst hmem
        have hb2 : b = bt := by
          have hb3 : b ∈ c.blocks ++ [bt] := hb
          rw [hcbl] at hb3
          simpa using hb3
        subst hb2
        rw [hbt1, hctc]
        constructor <;> omega
    · simp only [List.getLast?_concat]
      constructor <;> simp [hctc]
    · intro p hp x hx
      by_cases hkc : f0.is_keyframe ∧ track.make_cues
      · rw [if_pos hkc] at hp
        rcases cueAdd_mem _ _ _ p hp x hx with ⟨p0, hp0, hx0⟩ | rfl
        · obtain ⟨c0, hc0, bt0, hb0, htr0, hkf0⟩ := hcue p0 hp0 x hx0
          refine ⟨c0, ?_, bt0, hb0, htr0, hkf0⟩
          rw [List.getElem?_append_left (getElem?_lt_length hc0)]
          exact hc0
        · refine ⟨{ c with blocks := c.blocks ++ [bt] }, ?_, bt, ?_, ?_, hbt3 hkc.1⟩
          · simp [List.getElem?_concat_length]
          · simp [List.getElem?_concat_length]
          · simp [hbt2]
      · rw [if_neg hkc] at hp
        obtain ⟨c0, hc0, bt0, hb0, htr0, hkf0⟩ := hcue p hp x hx
        refine ⟨c0, ?_, bt0, hb0, htr0, hkf0⟩
        rw [List.getElem?_append_left (getElem?_lt_length hc0)]
        exact hc0
  · rw [if_neg hw] at hl ⊢
    push_neg at hw
    have hwin : st.c_min = c.tc - 2 ^ 15 ∧ st.c_max = st.c_min + tlen_c - 1 := by
      have hwin0 := hinv.2
      rw [hl] at hwin0
      exact hwin0
    have hcmem : c ∈ st.clusters := by
      rw [List.getLast?_eq_getElem?] at hl
      exact List.getElem?_mem hl
    refine ⟨⟨?_, ?_⟩, ?_⟩
    · intro c0 hc0 b hb
      rcases List.mem_append.1 hc0 with hmem | hmem
      · exact hinv.1 c0 (List.dropLast_subset _ hmem) b hb
      · rw [List.mem_singleton] at hmem
        subst hmem
        have hb2 : b ∈ c.blocks ++ [bt] := hb
        rcases List.mem_append.1 hb2 with hb1 | hb1
        · exact hinv.1 c hcmem b hb1
        · rw [List.mem_singleton] at hb1
          subst hb1
          rw [hbt1]
          obtain ⟨hw1, hw2⟩ := hwin
          obtain ⟨hw3, hw4⟩ := hw
          constructor <;> omega
    · simp only [List.getLast?_concat]
      exact hwin
    · intro p hp x hx
      have hnew : ∀ hx2 : x = (⟨tn, st.clusters.length - 1, c.blocks.length⟩ : CueTP),
          f0.is_keyframe = true →
          ∃ cc, (st.clusters.dropLast ++
              [{ c with blocks := c.blocks ++ [bt] }])[x.clust]? = some cc ∧
            ∃ bt2, cc.blocks[x.cbn]? = some bt2 ∧
              btTrack bt2 = x.track ∧ btIsKeyframe bt2 = true := by
        intro hx2 hkf
        subst hx2
        refine ⟨{ c with blocks := c.blocks ++ [bt] }, ?_, bt, ?_, ?_, hbt3 hkf⟩
        · show (st.clusters.dropLast ++ [_])[st.clusters.length - 1]? = _
          rw [show st.clusters.length - 1 = st.clusters.dropLast.length from
            (List.length_dropLast _).symm, List.getElem?_concat_length]
        · show (c.blocks ++ [bt])[c.blocks.length]? = some bt
          rw [List.getElem?_concat_length]
        · exact hbt2.symm ▸ rfl
      have hold : ∀ p0 ∈ st.cues, x ∈ p0.2 →
          ∃ cc, (st.clusters.dropLast ++
              [{ c with blocks := c.blocks ++ [bt] }])[x.clust]? = some cc ∧
            ∃ bt2, cc.blocks[x.cbn]? = some bt2 ∧
              btTrack bt2 = x.track ∧ btIsKeyframe bt2 = true := by
        intro p0 hp0 hx0
        obtain ⟨c0, hc0, bt0, hb0, htr0, hkf0⟩ := hcue p0 hp0 x hx0
        have hlt : x.clust < st.clusters.length := getElem?_lt_length hc0
        rcases Nat.lt_or_ge x.clust (st.clusters.length - 1) with hj | hj
        · refine ⟨c0, ?_, bt0, hb0, htr0, hkf0⟩
          rw [List.getElem?_append_left (by
            rw [List.length_dropLast]; exact hj), List.getElem?_dropLast, if_pos hj]
          exact hc0
        · have hj1 : x.clust = st.clusters.length - 1 := by omega
          have hc0c : c = c0 := by
            rw [List.getLast?_eq_getElem?] at hl
            rw [hj1] at hc0
            exact Option.some.inj (hl.symm.trans hc0)
          subst hc0c
          refine ⟨{ c with blocks := c.blocks ++ [bt] }, ?_, bt0, ?_, htr0, hkf0⟩
          · show (st.clusters.dropLast ++ [_])[x.clust]? = _
            rw [hj1, show st.clusters.length - 1 = st.clusters.dropLast.length from
              (List.length_dropLast _).symm, List.getElem?_concat_length]
          · have hblt : x.cbn < c.blocks.length := getElem?_lt_length hb0
            show (c.blocks ++ [bt])[x.cbn]? = some bt0
            rw [List.getElem?_append_left hblt]
            exact hb0
      by_cases hkc : f0.is_keyframe ∧ track.make_cues
      · rw [if_pos hkc] at hp
        rcases cueAdd_mem _ _ _ p hp x hx with ⟨p0, hp0, hx0⟩ | hx2
        · exact hold p0 hp0 hx0
        · exact hnew hx2 hkc.1
      · rw [if_neg hkc] at hp
        exact hold p hp hx

theorem buildClustersLoop_spec (tracks : List TrackInfo) (tlen_c : Int) (lim : Nat) :
    ∀ (fuel : Nat) (st st2 : BCState), blocksInv tlen_c st → cuesInv st →
      buildClustersLoop tracks tlen_c lim fuel st = some st2 →
      blocksInv tlen_c st2 ∧ cuesInv st2 := by
  intro fuel
  induction fuel with
  | zero =>
    intro st st2 _ _ h
    exact Option.noConfusion h
  | succ fuel ih =>
    intro st st2 hb hc h
    rw [buildClustersLoop] at h
    rcases hf : st.frames with - | ⟨e, es⟩
    · rw [hf] at h
      injection h with h2
      subst h2
      exact ⟨hb, hc⟩
    · rw [hf] at h
      rcases hs : buildClustersStep tracks tlen_c lim st with - | st1
      · rw [hs] at h
        exact Option.noConfusion h
      · rw [hs] at h
        obtain ⟨hb1, hc1⟩ := buildClustersStep_spec tracks tlen_c lim st st1 hb hc hs
        exact ih st1 st2 hb1 hc1 h

theorem blocksInv_init (tlen_c : Int) (fr : List (Nat × FrameQueue)) :
    blocksInv tlen_c ⟨fr, [], [], 0, -1⟩ := by
  constructor
  · intro c hc
    simp at hc
  · simp

theorem blocksInv_init_add (tlen_c tc : Int) (fr : List (Nat × FrameQueue)) :
    blocksInv tlen_c (bcAddCluster tlen_c tc ⟨fr, [], [], 0, -1⟩) := by
  constructor
  · intro c hc b hb
    simp [bcAddCluster] at hc
    subst hc
    simp at hb
  · simp [bcAddCluster]

theorem cuesInv_no_cues (st : BCState) (hc : st.cues = []) : cuesInv st := by
  intro p hp
  rw [hc] at hp
  simp at hp

theorem build_clusters_tail (tracks : List TrackInfo) (tlen_c : Int) (lim fuel : Nat)
    (st1 : BCState) (cls : List ClusterM) (cues : List (Int × List CueTP))
    (hb : blocksInv tlen_c st1) (hc : cuesInv st1)
    (h : (buildClustersLoop tracks tlen_c lim fuel st1).map
      (fun st => (st.clusters, st.cues)) = some (cls, cues)) :
    (∀ c ∈ cls, ∀ bt ∈ c.blocks,
      -(2 ^ 15) ≤ (btBlock bt).timecode ∧
        (btBlock bt).timecode ≤ -(2 ^ 15) + max tlen_c 1 - 1) ∧
    (∀ p ∈ cues, ∀ ctp ∈ p.2,
      ∃ c, cls[ctp.clust]? = some c ∧
        ∃ bt, c.blocks[ctp.cbn]? = some bt ∧
          btTrack bt = ctp.track ∧ btIsKeyframe bt = true) := by
  rcases hl : buildClustersLoop tracks tlen_c lim fuel st1 with - | stf
  · rw [hl] at h
    exact Option.noConfusion h
  · rw [hl] at h
    injection h with h2
    have hcls : stf.clusters = cls := congrArg Prod.fst h2
    have hcues : stf.cues = cues := congrArg Prod.snd h2
    obtain ⟨hbf, hcf⟩ := buildClustersLoop_spec tracks tlen_c lim fuel st1 stf hb hc hl
    subst hcls
    subst hcues
    exact ⟨hbf.1, hcf⟩

theorem build_clusters_spec (tcs : Nat) (tracks : List TrackInfo)
    (framesIn : List (Nat × List MatroskaFrame)) (lace_mask : Nat)
    (cls : List ClusterM) (cues : List (Int × List CueTP))
    (h : build_clusters tcs tracks framesIn lace_mask = some (cls, cues)) :
    (∀ c ∈ cls, ∀ bt ∈ c.blocks,
      -(2 ^ 15) ≤ (btBlock bt).timecode ∧
        (btBlock bt).timecode ≤
          -(2 ^ 15) + max (min (2 ^ 16) (((5 * 10 ^ 9) / tcs : Nat) : Int)) 1 - 1) ∧
    (∀ p ∈ cues, ∀ ctp ∈ p.2,
      ∃ c, cls[ctp.clust]? = some c ∧
        ∃ bt, c.blocks[ctp.cbn]? = some bt ∧
          btTrack bt = ctp.track ∧ btIsKeyframe bt = true) := by
  rw [build_clusters] at h
  refine build_clusters_tail tracks _ 32 _ _ cls cues ?_ ?_ h
  · rcases hsc : framesIn.flatMap (fun e => e.2.map (fun f => f.tc)) with - | ⟨t, ts⟩
    · simp only [hsc]
      exact blocksInv_init _ _
    · simp only [hsc]
      by_cases hall : framesIn.all (fun e => e.2 ≠ [])
      · rw [if_pos hall]
        exact blocksInv_init_add _ _ _
      · rw [if_neg hall]
        exact blocksInv_init _ _
  · apply cuesInv_no_cues
    rcases hsc : framesIn.flatMap (fun e => e.2.map (fun f => f.tc)) with - | ⟨t, ts⟩
    · simp only [hsc]
    · simp only [hsc]
      by_cases hall : framesIn.all (fun e => e.2 ≠ [])
      · rw [if_pos hall]
        rfl
      · rw [if_neg hall]

/-- Claim C5, corrected (see `claim_C5_counterexample`: with lacing enabled, a
laced frame other than the block's first may have an absolute timecode outside
the cluster's acceptance window, so the claim's "for every frame" reading is
false).  What does hold, for every block of every emitted cluster and every
timecode scale: the stored per-block timecode — the offset of the block's
first frame from the cluster base — lies in `[-2^15, -2^15 + max(L, 1) - 1]`
for the chosen cluster length `L = min(2^16, int(5e9/tcs))` (when
`tcs > 5*10^9` the acceptance window is empty, every frame opens a fresh
cluster, and each block is stored at offset exactly `-2^15`), and in
particular always fits a signed 16-bit offset. -/
theorem claim_C5_block_timecodes (tcs : Nat) (tracks : List TrackInfo)
    (framesIn : List (Nat × List MatroskaFrame)) (lace_mask : Nat)
    (cls : List ClusterM) (cues : List (Int × List CueTP))
    (hres : build_clusters tcs tracks framesIn lace_mask = some (cls, cues)) :
    ∀ c ∈ cls, ∀ bt ∈ c.blocks,
      -(2 ^ 15) ≤ (btBlock bt).timecode ∧
      (btBlock bt).timecode ≤
        -(2 ^ 15) + max (min (2 ^ 16) (((5 * 10 ^ 9) / tcs : Nat) : Int)) 1 - 1 ∧
      (btBlock bt).timecode ≤ 2 ^ 15 - 1 := by
  intro c hc bt hb
  obtain ⟨h1, -⟩ := build_clusters_spec tcs tracks framesIn lace_mask cls cues hres
  obtain ⟨ha, hb2⟩ := h1 c hc bt hb
  refine ⟨ha, hb2, ?_⟩
  have hm := min_le_left (2 ^ 16 : Int) (((5 * 10 ^ 9) / tcs : Nat) : Int)
  have hmax : max (min (2 ^ 16) (((5 * 10 ^ 9) / tcs : Nat) : Int)) 1 ≤ 2 ^ 16 := by
    omega
  omega

/-- Witness for C5: the one-keyframe source of the §8 scenario.  The builder
emits an empty aligned cluster and a second cluster holding the block at
offset `-2^15`, which satisfies all three bounds. -/
theorem claim_C5_witness :
    -(2 ^ 15) ≤ (btBlock (BlockThing.simple
        ⟨true, 1, -32768, 128, true, [⟨0, 0, [], 5, none⟩], none⟩)).timecode ∧
    (btBlock (BlockThing.simple
        ⟨true, 1, -32768, 128, true, [⟨0, 0, [], 5, none⟩], none⟩)).timecode ≤
      -(2 ^ 15) + max (min (2 ^ 16) (((5 * 10 ^ 9) / 1000000 : Nat) : Int)) 1 - 1 ∧
    (btBlock (BlockThing.simple
        ⟨true, 1, -32768, 128, true, [⟨0, 0, [], 5, none⟩], none⟩)).timecode ≤
      2 ^ 15 - 1 :=
  claim_C5_block_timecodes 1000000 [⟨false, true⟩] [(1, c3frames)] 0
    [⟨0, none, []⟩,
      ⟨32768, some 8, [BlockThing.simple
        ⟨true, 1, -32768, 128, true, [⟨0, 0, [], 5, none⟩], none⟩]⟩]
    [(0, [⟨1, 1, 0⟩])] (by decide)
    ⟨32768, some 8, [BlockThing.simple
      ⟨true, 1, -32768, 128, true, [⟨0, 0, [], 5, none⟩], none⟩]⟩
    (by decide)
    (BlockThing.simple ⟨true, 1, -32768, 128, true, [⟨0, 0, [], 5, none⟩], none⟩)
    (by decide)

theorem clusterOffsets_length (cls : List ClusterM) :
    ∀ s0, (clusterOffsets s0 cls).length = cls.length := by
  induction cls with
  | nil => intro s0; rfl
  | cons c rest ih =>
    intro s0
    rw [clusterOffsets]
    simp [ih]

theorem clusterOffsets_getElem? (cls : List ClusterM) :
    ∀ (s0 j : Nat), j < cls.length →
      (clusterOffsets s0 cls)[j]? =
        some (s0 + ((cls.take j).map cluster_get_size).sum) := by
  induction cls with
  | nil =>
    intro s0 j hj
    simp at hj
  | cons c rest ih =>
    intro s0 j hj
    cases j with
    | zero => simp [clusterOffsets]
    | succ j =>
      rw [clusterOffsets]
      simp only [List.getElem?_cons_succ]
      rw [ih (s0 + cluster_get_size c) j (by simpa using hj)]
      simp [Nat.add_assoc]

theorem updCPs_spec (offs : List Nat) :
    ∀ l : List CueTP, (∀ ctp ∈ l, ctp.clust < offs.length) →
      ∃ l2, updCPs offs l = some l2 ∧
        ∀ x ∈ l2, x.1 ∈ l ∧ offs[x.1.clust]? = some x.2 := by
  intro l
  induction l with
  | nil =>
    intro hd
    exact ⟨[], rfl, by simp⟩
  | cons ctp rest ih =>
    intro hdom
    obtain ⟨l2, hl2, hmem⟩ := ih (fun c hc => hdom c (List.mem_cons_of_mem _ hc))
    have hlt : ctp.clust < offs.length := hdom ctp (List.mem_cons_self _ _)
    have ho : offs[ctp.clust]? = some offs[ctp.clust] := List.getElem?_eq_getElem hlt
    refine ⟨(ctp, offs[ctp.clust]) :: l2, ?_, ?_⟩
    · rw [updCPs, ho, hl2]
      rfl
    · intro x hx
      rcases List.mem_cons.1 hx with rfl | hx2
      · exact ⟨List.mem_cons_self _ _, ho⟩
      · obtain ⟨h1, h2⟩ := hmem x hx2
        exact ⟨List.mem_cons_of_mem _ h1, h2⟩

theorem update_ccps_spec (offs : List Nat) :
    ∀ cues : List (Int × List CueTP),
      (∀ p ∈ cues, ∀ ctp ∈ p.2, ctp.clust < offs.length) →
      ∃ upd, update_ccps offs cues = some upd ∧
        ∀ p ∈ upd, ∃ p0 ∈ cues,
          ∀ x ∈ p.2, x.1 ∈ p0.2 ∧ offs[x.1.clust]? = some x.2 := by
  intro cues
  induction cues with
  | nil =>
    intro hd
    exact ⟨[], rfl, by simp⟩
  | cons p0 rest ih =>
    intro hdom
    obtain ⟨tv, l⟩ := p0
    obtain ⟨upd, hupd, hmem⟩ := ih (fun p hp => hdom p (List.mem_cons_of_mem _ hp))
    obtain ⟨l2, hl2, hmem2⟩ := updCPs_spec offs l
      (fun c hc => hdom (tv, l) (List.mem_cons_self _ _) c hc)
    refine ⟨(tv, l2) :: upd, ?_, ?_⟩
    · rw [update_ccps, hl2, hupd]
      rfl
    · intro p hp
      rcases List.mem_cons.1 hp with rfl | hp2
      · exact ⟨(tv, l), List.mem_cons_self _ _, hmem2⟩
      · obtain ⟨q0, hq0, hq⟩ := hmem p hp2
        exact ⟨q0, List.mem_cons_of_mem _ hq0, hq⟩

/-- Claim C7: for every CueTrackPositions entry of the built cues,
`update_ccps` (run by `write_to_file` after the body pass) assigns it a final
CueClusterPosition equal to the segment-body-relative offset at which its
cluster is written — the size `s0` of the elements preceding the clusters
plus the sizes of all earlier clusters — and the block the entry references
(its 0-based CueBlockNumber within that cluster) is a keyframe block of the
track named by CueTrack. -/
theorem claim_C7_cue_positions (tcs : Nat) (tracks : List TrackInfo)
    (framesIn : List (Nat × List MatroskaFrame)) (lace_mask : Nat)
    (cls : List ClusterM) (cues : List (Int × List CueTP)) (s0 : Nat)
    (hres : build_clusters tcs tracks framesIn lace_mask = some (cls, cues)) :
    ∃ upd, update_ccps (clusterOffsets s0 cls) cues = some upd ∧
      ∀ p ∈ upd, ∃ p0 ∈ cues, ∀ x ∈ p.2,
        x.1 ∈ p0.2 ∧
        x.2 = s0 + ((cls.take x.1.clust).map cluster_get_size).sum ∧
        ∃ c, cls[x.1.clust]? = some c ∧
          ∃ bt, c.blocks[x.1.cbn]? = some bt ∧
            btTrack bt = x.1.track ∧ btIsKeyframe bt = true := by
  obtain ⟨-, hcue⟩ := build_clusters_spec tcs tracks framesIn lace_mask cls cues hres
  have hdom : ∀ p ∈ cues, ∀ ctp ∈ p.2, ctp.clust < (clusterOffsets s0 cls).length := by
    intro p hp ctp hctp
    obtain ⟨c, hc, -⟩ := hcue p hp ctp hctp
    rw [clusterOffsets_length]
    exact getElem?_lt_length hc
  obtain ⟨upd, hupd, hmem⟩ := update_ccps_spec (clusterOffsets s0 cls) cues hdom
  refine ⟨upd, hupd, ?_⟩
  intro p hp
  obtain ⟨p0, hp0, hx⟩ := hmem p hp
  refine ⟨p0, hp0, ?_⟩
  intro x hxp
  obtain ⟨hx1, hx2⟩ := hx x hxp
  obtain ⟨c, hc, bt, hbt, htr, hkf⟩ := hcue p0 hp0 x.1 hx1
  have hlt : x.1.clust < cls.length := getElem?_lt_length hc
  rw [clusterOffsets_getElem? cls s0 x.1.clust hlt] at hx2
  refine ⟨hx1, (Option.some.inj hx2).symm, c, hc, bt, hbt, htr, hkf⟩

/-- Witness for C7 at the one-keyframe scenario with the clusters preceded by
`s0 = 100` bytes of segment body: the first (empty) cluster is 8 bytes, so the
single cue entry is assigned CueClusterPosition 108 and references the
keyframe SimpleBlock of track 1. -/
theorem claim_C7_witness :
    ∃ upd, update_ccps (clusterOffsets 100
        [⟨0, none, []⟩,
          ⟨32768, some 8, [BlockThing.simple
            ⟨true, 1, -32768, 128, true, [⟨0, 0, [], 5, none⟩], none⟩]⟩])
        [(0, [⟨1, 1, 0⟩])] = some upd ∧
      ∀ p ∈ upd, ∃ p0 ∈ [((0 : Int), [(⟨1, 1, 0⟩ : CueTP)])], ∀ x ∈ p.2,
        x.1 ∈ p0.2 ∧
        x.2 = 100 + ((([(⟨0, none, []⟩ : ClusterM),
          ⟨32768, some 8, [BlockThing.simple
            ⟨true, 1, -32768, 128, true, [⟨0, 0, [], 5, none⟩], none⟩]⟩]).take
              x.1.clust).map cluster_get_size).sum ∧
        ∃ c, ([(⟨0, none, []⟩ : ClusterM),
          ⟨32768, some 8, [BlockThing.simple
            ⟨true, 1, -32768, 128, true, [⟨0, 0, [], 5, none⟩], none⟩]⟩])[x.1.clust]? =
              some c ∧
          ∃ bt, c.blocks[x.1.cbn]? = some bt ∧
            btTrack bt = x.1.track ∧ btIsKeyframe bt = true :=
  claim_C7_cue_positions 1000000 [⟨false, true⟩] [(1, c3frames)] 0
    [⟨0, none, []⟩,
      ⟨32768, some 8, [BlockThing.simple
        ⟨true, 1, -32768, 128, true, [⟨0, 0, [], 5, none⟩], none⟩]⟩]
    [(0, [⟨1, 1, 0⟩])] 100 (by decide)

/-- Claim C10: for every parsed annotation and both spam-filter settings, the
annotation yields a subtitle event iff it has text content, both regions are
present and both region timestamps parsed to a value, and, when spam
filtering is enabled, the spam flag is clear; every emitted event starts at
`r1.t` and lasts `r2.t - r1.t`; and a region `t` attribute parses to a value
exactly when it is neither absent nor the sentinel string `never`
(`parse_rr_t` is `none` on both). -/
theorem claim_C10_annotation_subtitles (a : YTAnno) (filter_spam : Bool) :
    ((a.get_sub filter_spam).isSome ↔
      a.content.isSome ∧ (∃ r1 t1, a.r1 = some r1 ∧ r1.t = some t1) ∧
        (∃ r2 t2, a.r2 = some r2 ∧ r2.t = some t2) ∧
        ¬(filter_spam ∧ a.yt_spam_flag)) ∧
    (∀ s, a.get_sub filter_spam = some s →
      ∃ r1 r2 t1 t2, a.r1 = some r1 ∧ a.r2 = some r2 ∧
        r1.t = some t1 ∧ r2.t = some t2 ∧ s.start = t1 ∧ s.dur = t2 - t1) ∧
    (filter_spam = true → a.yt_spam_flag = true → a.get_sub filter_spam = none) ∧
    (∀ ta, (parse_rr_t ta).isSome ↔ ∃ parts, ta = TAttr.time parts) := by
  obtain ⟨content, author, or1, or2, sp⟩ := a
  refine ⟨?_, ?_, ?_, fun ta => ?_⟩
  · rcases content with - | text
    · simp [YTAnno.get_sub]
    rcases or1 with - | r1
    · simp [YTAnno.get_sub]
    rcases or2 with - | r2
    · simp [YTAnno.get_sub]
    rcases hr1 : r1.t with - | v1
    · simp [YTAnno.get_sub, hr1]
    rcases hr2 : r2.t with - | v2
    · simp [YTAnno.get_sub, hr1, hr2]
    rcases filter_spam with - | - <;> rcases sp with - | - <;>
      simp [YTAnno.get_sub, hr1, hr2]
  · intro s hs
    rcases content with - | text
    · simp [YTAnno.get_sub] at hs
    rcases or1 with - | r1
    · simp [YTAnno.get_sub] at hs
    rcases or2 with - | r2
    · simp [YTAnno.get_sub] at hs
    rcases hr1 : r1.t with - | v1
    · simp [YTAnno.get_sub, hr1] at hs
    rcases hr2 : r2.t with - | v2
    · simp [YTAnno.get_sub, hr1, hr2] at hs
    simp only [YTAnno.get_sub, hr1, hr2] at hs
    by_cases hc : filter_spam = true ∧ sp = true
    · rw [if_pos hc] at hs
      exact absurd hs (by simp)
    · rw [if_neg hc] at hs
      injection hs with h
      subst h
      exact ⟨r1, r2, v1, v2, rfl, rfl, hr1, hr2, rfl, rfl⟩
  · intro hf hsp
    subst hf
    have hsp2 : sp = true := hsp
    subst hsp2
    rcases content with - | text
    · rfl
    rcases or1 with - | r1
    · rfl
    rcases or2 with - | r2
    · rfl
    rcases hr1 : r1.t with - | v1 <;> rcases hr2 : r2.t with - | v2 <;>
      simp [YTAnno.get_sub, hr1, hr2]
  · cases ta <;> simp [parse_rr_t]
